import Mathlib

/-!
Verification of the livepeer media-server repository against its
natural-language specification.

The Go sources are shallowly embedded: pure functions become Lean
functions, loops become fuel-bounded recursions (the fuel is always at
least the number of iterations the Go loop can perform on the states the
program reaches), machine integers become `Nat`/`Int`, `*big.Int`
pointers become `Option Int`, and Go panics (nil dereferences) become
`Except`/`Option` failures.  `float64` values that only travel through
byte envelopes are carried as their raw 64-bit patterns; `float64`
arithmetic (sums, divisions in averages and rates) is modelled exactly
over `ℚ`, which preserves every ordering and equality fact stated here.
-/

set_option maxRecDepth 4096

/-! ## Byte-level helpers (little-endian fields of the pub/sub envelope) -/

/-- Little-endian byte list (length `k`) of a natural number. -/
def leBytes : Nat → Nat → List Nat
  | 0, _ => []
  | k + 1, v => (v % 256) :: leBytes k (v / 256)

/-- Value of a little-endian byte list. -/
def leVal (bs : List Nat) : Nat :=
  bs.foldr (fun b acc => b + 256 * acc) 0

/-- The 64-bit byte reversal used by gob's float encoding. -/
def revBytes8 (u : Nat) : Nat :=
  leVal ((leBytes 8 u).reverse)

/-! ## HLSSegment (stream.HLSSegment from the media framework)

`{SeqNo uint64, Name string, Duration float64, Data []byte, EOF bool}`.
The name is kept as its byte list and the duration as its IEEE-754 bit
pattern; the envelope moves both only as bytes. -/

structure HLSSegment where
  seqNo : Nat
  name : List Nat
  durationBits : Nat
  data : List Nat
  eof : Bool
  deriving DecidableEq, Repr

instance : Inhabited HLSSegment := ⟨⟨0, [], 0, [], false⟩⟩

/-- The zero value of `stream.HLSSegment` (what a failed gob decode leaves
behind, and the literal `stream.HLSSegment{EOF: true}` minus the flag). -/
def zeroSegment : HLSSegment := ⟨0, [], 0, [], false⟩

/-- Model of `stream.HLSSegment{EOF: true}`: the finish message the segmenter
bridge broadcasts (mediaserver.go line 280). -/
def eofSegment : HLSSegment := ⟨0, [], 0, [], true⟩

/-! ## The spec's pub/sub envelope (§6)

Modelled from the spec: the encoder (`core.BroadcastToNetwork`) is not
among the given sources, so the envelope layout is taken from the spec's
words: "length-prefixed record of `(seq_no: u64 LE, name_len: u16 LE,
name: bytes, duration: f64 LE, data_len: u32 LE, data: bytes, eof: u8)`".
-/

def specEncodeSegment (s : HLSSegment) : List Nat :=
  leBytes 8 s.seqNo ++ leBytes 2 s.name.length ++ s.name ++
    leBytes 8 s.durationBits ++ leBytes 4 s.data.length ++ s.data ++
    [if s.eof then 1 else 0]

/-- Read exactly `n` bytes, returning them and the remainder. -/
def readN (n : Nat) (bs : List Nat) : Option (List Nat × List Nat) :=
  if n ≤ bs.length then some (bs.take n, bs.drop n) else none

/-- Modelled from the spec: the decoder of the spec's length-prefixed
record (the field-by-field inverse of `specEncodeSegment`). -/
def specDecodeSegment (bs : List Nat) : Option HLSSegment := do
  let (b1, r1) ← readN 8 bs
  let (b2, r2) ← readN 2 r1
  let (nm, r3) ← readN (leVal b2) r2
  let (b4, r4) ← readN 8 r3
  let (b5, r5) ← readN 4 r4
  let (dt, r6) ← readN (leVal b5) r5
  let (b7, r7) ← readN 1 r6
  if r7 = [] then
    some ⟨leVal b1, nm, leVal b4, dt, if b7.headD 0 = 0 then false else true⟩
  else none

/-! ## The subscriber-side decode: Go's `encoding/gob`

The media-playlist subscribe callback (mediaserver.go lines 370-375)
decodes the envelope with `gob.NewDecoder(bytes.NewReader(data))` /
`dec.Decode(&seg)`.  The model below follows the documented gob wire
format: a stream of length-prefixed messages; each message starts with a
signed type id; negative ids introduce a type definition, nonnegative ids
carry a value of a previously defined type; struct values are
delta-tagged fields ended by a zero delta.  Simplification (immaterial
for the facts proved here, which fail before any value is decoded): type
definition payloads are accepted without structural validation, and
builtin ids are not pre-registered since a struct value must use an id
introduced by a definition message. -/

inductive GobErr where
  | eof
  | badCount
  | badTypeId
  | badField
  deriving DecidableEq, Repr

/-- gob's unsigned integer decoding: a byte below 128 is the value; a
byte `b` above 128 announces `256 - b` big-endian bytes (at most 8). -/
def gobReadUint : List Nat → Except GobErr (Nat × List Nat)
  | [] => .error .eof
  | b :: rest =>
    if b ≤ 127 then .ok (b, rest)
    else
      let n := 256 - b
      if 8 < n then .error .badCount
      else if rest.length < n then .error .eof
      else .ok ((rest.take n).foldl (fun acc x => acc * 256 + x) 0, rest.drop n)

/-- gob's signed integer decoding: the low bit of the unsigned carrier
selects complementation. -/
def gobReadInt (bs : List Nat) : Except GobErr (Int × List Nat) :=
  match gobReadUint bs with
  | .error e => .error e
  | .ok (u, rest) =>
    if u % 2 = 1 then .ok (-(u / 2 : Int) - 1, rest) else .ok ((u / 2 : Int), rest)

/-- Decode the delta-tagged fields of an `HLSSegment` struct value
(fields in wire order: SeqNo uint64, Name string, Duration float64,
Data []byte, EOF bool; a zero delta terminates). -/
def gobFieldsLoop : Nat → Int → HLSSegment → List Nat → Except GobErr HLSSegment
  | 0, _, _, _ => .error .eof
  | fuel + 1, fieldNum, acc, bs =>
    match gobReadUint bs with
    | .error e => .error e
    | .ok (delta, rest) =>
      if delta = 0 then
        if rest = [] then .ok acc else .error .badField
      else
        let fn := fieldNum + delta
        if fn = 0 then
          match gobReadUint rest with
          | .error e => .error e
          | .ok (u, r) => gobFieldsLoop fuel fn { acc with seqNo := u } r
        else if fn = 1 then
          match gobReadUint rest with
          | .error e => .error e
          | .ok (len, r) =>
            match readN len r with
            | none => .error .eof
            | some (nm, r2) => gobFieldsLoop fuel fn { acc with name := nm } r2
        else if fn = 2 then
          match gobReadUint rest with
          | .error e => .error e
          | .ok (u, r) => gobFieldsLoop fuel fn { acc with durationBits := revBytes8 u } r
        else if fn = 3 then
          match gobReadUint rest with
          | .error e => .error e
          | .ok (len, r) =>
            match readN len r with
            | none => .error .eof
            | some (dt, r2) => gobFieldsLoop fuel fn { acc with data := dt } r2
        else if fn = 4 then
          match gobReadUint rest with
          | .error e => .error e
          | .ok (u, r) => gobFieldsLoop fuel fn { acc with eof := u ≠ 0 } r
        else .error .badField

/-- The gob message loop: read a length-prefixed message, consume type
definitions (negative ids), decode the value once its type id has been
defined. -/
def gobMsgLoop (defined : List Int) : Nat → List Nat → Except GobErr HLSSegment
  | 0, _ => .error .eof
  | fuel + 1, bs =>
    match gobReadUint bs with
    | .error e => .error e
    | .ok (count, rest) =>
      if rest.length < count then .error .eof
      else
        let payload := rest.take count
        let after := rest.drop count
        match gobReadInt payload with
        | .error e => .error e
        | .ok (tid, pbody) =>
          if tid < 0 then gobMsgLoop ((-tid) :: defined) fuel after
          else if tid ∈ defined then gobFieldsLoop (pbody.length + 1) (-1) zeroSegment pbody
          else .error .badTypeId

/-- The subscriber-side decode of an envelope, as the source performs it
(gob decode into a `stream.HLSSegment`). -/
def gobDecodeHLSSegment (bs : List Nat) : Except GobErr HLSSegment :=
  gobMsgLoop [] (bs.length + 1) bs

/-! ## Mediaserver errors and the got-RTMP-stream handler

Errors declared at the top of mediaserver.go, plus `insufficientBalance`,
which is the abstract error kind the spec's §7 lists; the source declares
no such error. -/

inductive MSError where
  | errNotFound
  | errAlreadyExists
  | errRTMPPublish
  | errBroadcast
  | insufficientBalance
  deriving DecidableEq, Repr

/-- Model of `BroadcastPrice = big.NewInt(150)` (mediaserver.go line 46). -/
def broadcastPrice : Int := 150

/-- Outcome of one on-chain job-creation attempt, as seen by
`createBroadcastJob`: the `Eth.Job` call may fail, waiting for the mined
transaction may fail, or a receipt arrives with some gas usage. -/
inductive JobAttempt where
  | jobSubmitErr
  | mineErr
  | mined (gasLimit gasUsed : Nat)
  deriving DecidableEq, Repr

instance : Inhabited JobAttempt := ⟨.jobSubmitErr⟩

/-- Model of `createBroadcastJob` (mediaserver.go lines 499-519): submit the job
transaction, wait for the receipt, and treat `gas_used = gas_limit` as a
revert; every failure is `ErrBroadcast`.  On success the transaction
(represented by its gas limit) is returned. -/
def createBroadcastJob : JobAttempt → Except MSError Nat
  | .jobSubmitErr => .error .errBroadcast
  | .mineErr => .error .errBroadcast
  | .mined gasLimit gasUsed =>
    if gasLimit = gasUsed then .error .errBroadcast else .ok gasLimit

/-- The on-chain client's behaviour during one publish, as the handler
observes it: the `TokenBalance()` result, the outcome of the n-th
`createBroadcastJob` attempt, and whether `WaitUntilNextRound` succeeds. -/
structure EthEnv where
  balance : Except Unit Int
  attempts : Nat → JobAttempt
  waitNextRoundOk : Bool

/-- Modelled from the spec (§4.1): the stream registry is a directory of
stream ids; `GetStream` looks an id up (`core.StreamDB` is not among the
given sources). -/
def getStream (db : List Nat) (id : Nat) : Bool :=
  db.contains id

/-- Modelled from the spec (§4.1): `add_stream(id, stream) -> ok | exists`
rejects duplicates, otherwise records the stream. -/
def addStream (db : List Nat) (id : Nat) : Option (List Nat) :=
  if db.contains id then none else some (db ++ [id])

structure HandlerResult where
  result : Except MSError Unit
  db : List Nat
  jobAttemptsUsed : Nat
  deriving Repr

/-- Model of `makeGotRTMPStreamHandler` (mediaserver.go lines 239-316): balance
precheck when the on-chain client is configured, duplicate check,
registration of the RTMP stream, creation and registration of the paired
HLS stream (segmenter and broadcaster goroutines are modelled
separately), then on-chain job creation with one retry after waiting for
the next round.  `jobAttemptsUsed` counts the `createBroadcastJob`
calls. -/
def gotRTMPStreamHandler (eth : Option EthEnv) (db : List Nat)
    (rtmpID hlsID : Nat) : HandlerResult :=
  let balanceCheck : Option MSError :=
    match eth with
    | none => none
    | some e =>
      match e.balance with
      | .error _ => some .errBroadcast
      | .ok b => if b < broadcastPrice then some .errBroadcast else none
  match balanceCheck with
  | some er => ⟨.error er, db, 0⟩
  | none =>
    if getStream db rtmpID then ⟨.error .errAlreadyExists, db, 0⟩
    else
      match addStream db rtmpID with
      | none => ⟨.error .errRTMPPublish, db, 0⟩
      | some db1 =>
        let db2 := (addStream db1 hlsID).getD db1
        match eth with
        | none => ⟨.ok (), db2, 0⟩
        | some e =>
          match createBroadcastJob (e.attempts 0) with
          | .ok _ => ⟨.ok (), db2, 1⟩
          | .error _ =>
            if e.waitNextRoundOk then
              match createBroadcastJob (e.attempts 1) with
              | .ok _ => ⟨.ok (), db2, 2⟩
              | .error _ => ⟨.error .errBroadcast, db2, 2⟩
            else ⟨.error .errBroadcast, db2, 1⟩

/-! ## The segmenter bridge goroutine (C2) -/

/-- Modelled from the spec: `WriteHLSSegmentToStream` appends a segment
to the HLS stream (the stream type is not among the given sources). -/
def hlsWriteSegmentToStream (strm : List HLSSegment) (seg : HLSSegment) :
    List HLSSegment :=
  strm ++ [seg]

/-- The segmenter-bridge goroutine body (mediaserver.go lines 276-285):
run `SegmentRTMPToHLS`; only when it returns an error is the finish
message `stream.HLSSegment{EOF: true}` written to the HLS stream.
`segResult` is `some e` when the segmenter returned error `e`, `none` on
a nil error. -/
def segmenterBridgeTask (segResult : Option Unit) (strm : List HLSSegment) :
    List HLSSegment :=
  match segResult with
  | some _ => hlsWriteSegmentToStream strm eofSegment
  | none => strm

/-! ## The media-playlist subscribe callback (C9) -/

/-- Modelled from the spec (§4.2): the HLS buffer keeps its segments and
an EOF flag (`stream.HLSBuffer` is not among the given sources). -/
structure HLSBuffer where
  segs : List HLSSegment
  sawEOF : Bool
  deriving DecidableEq, Repr

def newHLSBuffer : HLSBuffer := ⟨[], false⟩

def hlsBufferWriteSegment (b : HLSBuffer) (seg : HLSSegment) : HLSBuffer :=
  { b with segs := b.segs ++ [seg] }

def hlsBufferWriteEOF (b : HLSBuffer) : HLSBuffer :=
  { b with sawEOF := true }

inductive GoPanic where
  | nilDeref
  deriving DecidableEq, Repr

/-- The state the subscribe callback closes over: the captured `buf`
variable (nil when `GetHLSBuffer` found nothing, which is exactly when
the subscription is created) and whether `Unsubscribe` has been called. -/
structure SubscribeCallbackState where
  buf : Option HLSBuffer
  unsubscribed : Bool
  deriving DecidableEq, Repr

/-- The subscribe callback registered by `makeGetHLSMediaPlaylistHandler`
(mediaserver.go lines 360-384): on `eof` it calls `buf.WriteEOF()` and
unsubscribes — a nil dereference when `buf` is still nil — and then (the
branch does not return) gob-decodes the payload (a failed decode only
logs, leaving the zero segment), creates the buffer if absent, and writes
the segment. -/
def mediaPlaylistSubscribeCallback (st : SubscribeCallbackState)
    (data : List Nat) (eof : Bool) : Except GoPanic SubscribeCallbackState :=
  let step1 : Except GoPanic SubscribeCallbackState :=
    if eof then
      match st.buf with
      | none => .error .nilDeref
      | some b => .ok { st with buf := some (hlsBufferWriteEOF b), unsubscribed := true }
    else .ok st
  match step1 with
  | .error p => .error p
  | .ok st1 =>
    let seg := match gobDecodeHLSSegment data with
      | .ok s => s
      | .error _ => zeroSegment
    let st2 := match st1.buf with
      | none => { st1 with buf := some newHLSBuffer }
      | some _ => st1
    match st2.buf with
    | some b => .ok { st2 with buf := some (hlsBufferWriteSegment b seg) }
    | none => .error .nilDeref

/-! ## Orchestrator record conversion (db_discovery.go, C8) -/

/-- Model of `lpTypes.Transcoder` as `ethOrchToDBOrch` reads it; the round fields
are `*big.Int`, so a nil pointer is `none`. -/
structure EthTranscoder where
  serviceURI : Nat
  address : Nat
  activationRound : Option Int
  deactivationRound : Option Int
  deriving DecidableEq, Repr

structure DBOrch where
  serviceURI : Nat
  ethereumAddr : Nat
  activationRound : Int
  deactivationRound : Int
  deriving DecidableEq, Repr

/-- Model of `big.Int.Int64`: the value reduced to a signed 64-bit integer. -/
def bigIntToInt64 (x : Int) : Int :=
  ((x + 2 ^ 63) % 2 ^ 64) - 2 ^ 63

/-- Model of `ethOrchToDBOrch` (db_discovery.go lines 239-257): the executed code
returns immediately, calling `.Int64()` on both round pointers — a nil
dereference (`.error .nilDeref`) whenever either is nil.  The nil guards
in the source sit after the `return` statement and are unreachable. -/
def ethOrchToDBOrch (orch : Option EthTranscoder) : Except GoPanic (Option DBOrch) :=
  match orch with
  | none => .ok none
  | some o =>
    match o.activationRound with
    | none => .error .nilDeref
    | some ar =>
      match o.deactivationRound with
      | none => .error .nilDeref
      | some dr =>
        .ok (some ⟨o.serviceURI, o.address, bigIntToInt64 ar, bigIntToInt64 dr⟩)

/-! ## parseStreamID (mediaserver.go lines 479-487, C10) -/

/-- The literal part of the pattern, `"/stream/"`. -/
def streamPathMarker : List Char := ['/', 's', 't', 'r', 'e', 'a', 'm', '/']

/-- One character of `([[:alpha:]]|\d)`: ASCII letter or digit. -/
def goWordChar (c : Char) : Bool :=
  ('A' ≤ c && c ≤ 'Z') || ('a' ≤ c && c ≤ 'z') || ('0' ≤ c && c ≤ '9')

/-- The match of `\/stream\/([[:alpha:]]|\d)*` anchored at the head of
`l`: the literal marker followed by the greedy (maximal) run of word
characters. -/
def regexMatchAt (l : List Char) : Option (List Char) :=
  if streamPathMarker.isPrefixOf l then
    some (streamPathMarker ++ (l.drop streamPathMarker.length).takeWhile goWordChar)
  else none

/-- Model of `regexp.FindString`: the leftmost match (Go's RE2 engine returns the
match starting at the earliest position, with the star greedy). -/
def findRegexMatch : List Char → Option (List Char)
  | [] => none
  | c :: rest =>
    match regexMatchAt (c :: rest) with
    | some m => some m
    | none => findRegexMatch rest

/-- Model of `strings.Replace(s, pat, "", -1)`: delete every non-overlapping
leftmost occurrence of `pat`.  The fuel exceeds the number of characters
scanned, so it never runs out. -/
def replaceAllDrop (pat : List Char) : Nat → List Char → List Char
  | 0, l => l
  | fuel + 1, l =>
    match l with
    | [] => []
    | c :: rest =>
      if pat.isPrefixOf (c :: rest) then
        replaceAllDrop pat fuel ((c :: rest).drop pat.length)
      else c :: replaceAllDrop pat fuel rest

/-- Model of `parseStreamID`: find the regex match in the request path, then strip
the `"/stream/"` occurrences from it; no match leaves the id empty. -/
def parseStreamID (reqPath : List Char) : List Char :=
  match findRegexMatch reqPath with
  | none => []
  | some m => replaceAllDrop streamPathMarker (m.length + 1) m

/-! ## Telemetry: the segments averager (census.go, C4) -/

/-- Model of `timeToWaitForError = 8500 * time.Millisecond`; times are modelled in
milliseconds. -/
def timeToWaitForError : Int := 8500

/-- Model of `numberOfSegmentsToCalcAverage = 30`. -/
def numberOfSegmentsToCalcAverage : Nat := 30

structure segmentCount where
  seqNo : Nat
  emergedTime : Int
  emerged : Int
  transcoded : Int
  failed : Bool
  deriving DecidableEq, Repr

instance : Inhabited segmentCount := ⟨⟨0, 0, 0, 0, false⟩⟩

/-- Model of `segmentsAverager`: the fixed ring of `segmentCount` entries with
`start`/`end` indices (`end = -1` marks the empty ring).  The `tries`
map plays no part in the claims settled here and is omitted. -/
structure segmentsAverager where
  segments : List segmentCount
  start : Int
  endIdx : Int
  removed : Bool
  removedAt : Int
  deriving DecidableEq, Repr

/-- Model of `segmentsAverager.advance`. -/
def sAdvance (sa : segmentsAverager) (i : Int) : Int :=
  let i := i + 1
  if i = (sa.segments.length : Int) then 0 else i

/-- The qualification test inside `successRate`'s loop:
`item.transcoded > 0 || item.failed || now.Sub(item.emergedTime) > timeToWaitForError`. -/
def segQualifies (now : Int) (it : segmentCount) : Bool :=
  decide (0 < it.transcoded) || it.failed || decide (timeToWaitForError < now - it.emergedTime)

/-- The accumulation loop of `segmentsAverager.successRate` (census.go
lines 703-715); the fuel bounds the ring walk, which visits at most
`len(segments)` entries. -/
def srLoop (sa : segmentsAverager) (now : Int) :
    Nat → Int → Int → Int → Int × Int
  | 0, _, emerged, transcoded => (emerged, transcoded)
  | fuel + 1, i, emerged, transcoded =>
    let item := sa.segments.getD i.toNat default
    let emerged' := if segQualifies now item then emerged + item.emerged else emerged
    let transcoded' := if segQualifies now item then transcoded + item.transcoded else transcoded
    if i = sa.endIdx then (emerged', transcoded')
    else srLoop sa now fuel (sAdvance sa i) emerged' transcoded'

/-- Model of `segmentsAverager.successRate` (census.go lines 698-720): walk the
ring from `start` to `end`, summing `emerged`/`transcoded` over the
qualifying entries, and return `transcoded/emerged` when some qualifying
emergence was counted, `(1, false)` otherwise. -/
def successRate (sa : segmentsAverager) (now : Int) : ℚ × Bool :=
  if sa.endIdx = -1 then (1, false)
  else
    let p := srLoop sa now sa.segments.length sa.start 0 0
    if 0 < p.1 then ((p.2 : ℚ) / (p.1 : ℚ), true) else (1, false)

/-- The search loop inside `getAddItem` (census.go lines 756-765):
return the index holding `seqNo`, if any, between `start` and `end`. -/
def gaLoop (sa : segmentsAverager) (seqNo : Nat) : Nat → Int → Option Int
  | 0, _ => none
  | fuel + 1, i =>
    if (sa.segments.getD i.toNat default).seqNo = seqNo then some i
    else if i = sa.endIdx then none
    else gaLoop sa seqNo fuel (sAdvance sa i)

/-- Model of `segmentsAverager.getAddItem` (census.go lines 751-773): find the
entry for `seqNo` or allocate the next ring slot (advancing `start` when
the ring is full); returns the updated averager, the entry's index and
whether it already existed. -/
def getAddItem (sa : segmentsAverager) (seqNo : Nat) :
    segmentsAverager × Int × Bool :=
  if sa.endIdx = -1 then ({ sa with endIdx := 0 }, 0, false)
  else
    match gaLoop sa seqNo sa.segments.length sa.start with
    | some i => (sa, i, true)
    | none =>
      let e := sAdvance sa sa.endIdx
      let sa1 := { sa with endIdx := e }
      let sa2 := if e = sa1.start then { sa1 with start := sAdvance sa1 sa1.start } else sa1
      (sa2, e, false)

/-- Overwrite the ring entry at index `i`. -/
def setSegment (sa : segmentsAverager) (i : Int) (f : segmentCount → segmentCount) :
    segmentsAverager :=
  { sa with segments := sa.segments.set i.toNat (f (sa.segments.getD i.toNat default)) }

/-- Model of `segmentsAverager.addEmerged` (census.go lines 730-736). -/
def addEmerged (sa : segmentsAverager) (seqNo : Nat) (now : Int) : segmentsAverager :=
  let r := getAddItem sa seqNo
  setSegment r.1 r.2.1 fun it =>
    { it with emerged := 1, transcoded := 0, emergedTime := now, seqNo := seqNo }

/-- Model of `segmentsAverager.addTranscoded` (census.go lines 738-749): a fresh
entry starts with `emerged = 0`; `transcoded` is set only on success. -/
def addTranscoded (sa : segmentsAverager) (seqNo : Nat) (failed : Bool) (now : Int) :
    segmentsAverager :=
  let r := getAddItem sa seqNo
  setSegment r.1 r.2.1 fun it =>
    let it1 := if r.2.2 then it else { it with emerged := 0, emergedTime := now }
    let it2 := { it1 with failed := failed }
    let it3 := if failed then it2 else { it2 with transcoded := 1 }
    { it3 with seqNo := seqNo }

/-- Model of `newAverager` (census.go lines 1098-1103). -/
def newAverager : segmentsAverager :=
  ⟨List.replicate numberOfSegmentsToCalcAverage default, 0, -1, false, 0⟩

/-- Model of `censusMetricsCounter.successRate` (census.go lines 680-696): average
of the per-nonce rates that report `has`, and 1 when the success map is
empty or no averager reports. -/
def censusSuccessRate (avgs : List segmentsAverager) (now : Int) : ℚ :=
  if avgs.length = 0 then 1
  else
    let contrib := avgs.filterMap fun a =>
      let r := successRate a now
      if r.2 then some r.1 else none
    if 0 < contrib.length then contrib.sum / (contrib.length : ℚ) else 1

/-! ## Telemetry: moving average over a ring array (census.go, C5) -/

structure timeValue where
  time : Int
  value : ℚ
  deriving DecidableEq, Repr

instance : Inhabited timeValue := ⟨⟨0, 0⟩⟩

/-- Model of `ringArray`: backing array with `head`/`tail` indices; head and tail
both `-1` marks the empty ring. -/
structure ringArray where
  data : List timeValue
  head : Int
  tail : Int
  deriving DecidableEq, Repr

/-- Model of `newRingArray` (census.go lines 1353-1359). -/
def newRingArray (size : Nat) : ringArray :=
  ⟨List.replicate size default, -1, -1⟩

/-- Model of `ringArray.push` (census.go lines 1373-1399): insert at the head,
doubling the backing array (with the live window copied to the front)
when full. -/
def ringPush (ra : ringArray) (t : Int) (v : ℚ) : ringArray :=
  if ra.head = -1 ∧ ra.tail = -1 then
    { ra with head := 0, tail := 0, data := ra.data.set 0 ⟨t, v⟩ }
  else
    let n := ra.data.length
    let newHead := ra.head + 1
    let ra1 :=
      if newHead = ra.tail ∨ (newHead = (n : Int) ∧ ra.tail = 0) then
        if ra.tail < ra.head then
          { data := ((ra.data.drop ra.tail.toNat).take (ra.head - ra.tail + 1).toNat) ++
              List.replicate (2 * n - (ra.head - ra.tail + 1).toNat) default,
            head := ra.head - ra.tail, tail := 0 }
        else
          { data := ra.data.drop ra.tail.toNat ++ ra.data.take (ra.head + 1).toNat ++
              List.replicate (2 * n - ((n - ra.tail.toNat) + (ra.head + 1).toNat)) default,
            head := (n : Int) - ra.tail + ra.head, tail := 0 }
      else ra
    let h := ra1.head + 1
    let h := if h = (ra1.data.length : Int) then 0 else h
    { ra1 with head := h, data := ra1.data.set h.toNat ⟨t, v⟩ }

/-- Model of `ringArray.pop` (census.go lines 1401-1417): remove and return the
tail element. -/
def ringPop (ra : ringArray) : (Int × ℚ) × ringArray :=
  if ra.tail = -1 then ((0, 0), ra)
  else
    let tv := ra.data.getD ra.tail.toNat default
    if ra.tail = ra.head then ((tv.time, tv.value), { ra with head := -1, tail := -1 })
    else
      let t := ra.tail + 1
      let t := if (ra.data.length : Int) ≤ t then 0 else t
      ((tv.time, tv.value), { ra with tail := t })

/-- Model of `ringArray.hasData`. -/
def ringHasData (ra : ringArray) : Bool :=
  decide (ra.head ≠ -1) && decide (ra.tail ≠ -1)

/-- Model of `ringArray.getTail`. -/
def ringGetTail (ra : ringArray) : Int × ℚ :=
  if ra.tail ≠ -1 then
    let tv := ra.data.getD ra.tail.toNat default
    (tv.time, tv.value)
  else (0, 0)

/-- The summation loop of `ringArray.average` (census.go lines 1440-1453);
the fuel bounds the walk from `tail` to `head`. -/
def avLoop (ra : ringArray) : Nat → Int → ℚ → ℚ → ℚ × ℚ
  | 0, _, acc, num => (acc, num)
  | fuel + 1, i, acc, num =>
    let acc := acc + (ra.data.getD i.toNat default).value
    let num := num + 1
    let i := i + 1
    let i := if i = (ra.data.length : Int) then 0 else i
    if i = ra.head then (acc + (ra.data.getD ra.head.toNat default).value, num + 1)
    else avLoop ra fuel i acc num

/-- Model of `ringArray.average` (census.go lines 1432-1455). -/
def ringAverage (ra : ringArray) : ℚ :=
  if ¬ ringHasData ra then 0
  else if ra.head = ra.tail then (ra.data.getD ra.head.toNat default).value
  else
    let p := avLoop ra ra.data.length ra.tail 0 0
    p.1 / p.2

structure movingAverage where
  windowSize : Int
  data : ringArray
  deriving DecidableEq, Repr

/-- Model of `newMovingAverage` (census.go lines 1346-1351). -/
def newMovingAverage (windowSize : Int) (dataSize : Nat) : movingAverage :=
  ⟨windowSize, newRingArray dataSize⟩

/-- The eviction loop of `movingAverage.addSample` (census.go lines
1362-1368): pop tail samples whose age reaches the window size.  The
fuel exceeds the number of stored samples, so it never runs out. -/
def dropStaleLoop (w : Int) (now : Int) : Nat → ringArray → ringArray
  | 0, ra => ra
  | fuel + 1, ra =>
    if ringHasData ra then
      if w ≤ now - (ringGetTail ra).1 then dropStaleLoop w now fuel (ringPop ra).2
      else ra
    else ra

/-- Model of `movingAverage.addSample` (census.go lines 1361-1371): evict stale
tail samples, push the new one, return the average of what remains. -/
def addSample (ma : movingAverage) (now : Int) (val : ℚ) : movingAverage × ℚ :=
  let ra := dropStaleLoop ma.windowSize now (ma.data.data.length + 1) ma.data
  let ra := ringPush ra now val
  ({ ma with data := ra }, ringAverage ra)

/-- Feed a list of samples through `addSample`, returning the final state
and the value returned by the last push (0 when there is none). -/
def runSamples (ma : movingAverage) (l : List timeValue) : movingAverage × ℚ :=
  l.foldl (fun p s => addSample p.1 s.time s.value) (ma, 0)

/-! ## Abstractions used by the theorems -/

/-- Index advance with wraparound at `n`. -/
def wrapIdx (n : Nat) (i : Int) : Int :=
  let j := i + 1
  if j = (n : Int) then 0 else j

/-- The cyclic slice of `l` from index `i` through index `hd`
inclusive. -/
def cyc {α : Type} (l : List α) (hd i : Int) : List α :=
  if i ≤ hd then (l.drop i.toNat).take (hd - i + 1).toNat
  else l.drop i.toNat ++ l.take (hd + 1).toNat

/-- Fuel-bounded walk collecting the cyclic slice from `i` through `hd`;
mirrors the iteration pattern of the Go ring loops. -/
def cycWalk {α : Type} (l : List α) (hd : Int) (d : α) : Nat → Int → List α
  | 0, _ => []
  | fuel + 1, i =>
    l.getD i.toNat d :: (if i = hd then [] else cycWalk l hd d fuel (wrapIdx l.length i))

/-- Number of advances needed to reach `hd` from `i`. -/
def distTo (n : Nat) (hd i : Int) : Nat :=
  if i ≤ hd then (hd - i).toNat else ((n : Int) - i + hd).toNat

/-- The live contents of a ring array, oldest first. -/
def ringToList (ra : ringArray) : List timeValue :=
  if ra.head = -1 ∨ ra.tail = -1 then []
  else cyc ra.data ra.head ra.tail

/-- Well-formedness of a ring array: the backing array can hold at least
two samples (`newMovingAverage` uses 128) and the indices are both `-1`
or both in range. -/
def ringWF (ra : ringArray) : Prop :=
  1 < ra.data.length ∧
    ((ra.head = -1 ∧ ra.tail = -1) ∨
      (0 ≤ ra.head ∧ ra.head < ra.data.length ∧ 0 ≤ ra.tail ∧ ra.tail < ra.data.length))

/-- The entries of the segments averager, `start` through `end`. -/
def averagerEntries (sa : segmentsAverager) : List segmentCount :=
  if sa.endIdx = -1 then [] else cyc sa.segments sa.endIdx sa.start

/-- Sample times are nondecreasing. -/
def sortedTimes (l : List timeValue) : Prop :=
  l.Pairwise fun a b => a.time ≤ b.time

/-- Sum of the sample values. -/
def sumValues (l : List timeValue) : ℚ :=
  (l.map timeValue.value).sum

/-- Arithmetic mean of the sample values. -/
def meanValues (l : List timeValue) : ℚ :=
  sumValues l / (l.length : ℚ)

/-- The samples of `l` with timestamps in the half-open window
`(now - w, now]`. -/
def windowSamples (w now : Int) (l : List timeValue) : List timeValue :=
  l.filter fun s => decide (now - w < s.time) && decide (s.time ≤ now)


/-- A concrete segment used to exercise the envelope codecs. -/
def c3SampleA : HLSSegment := ⟨1, [97], 0, [170], false⟩

/-- A second concrete segment (name "bc", duration bits of 2.0, eof). -/
def c3SampleB : HLSSegment := ⟨2, [98, 99], 4611686018427387904, [170, 187], true⟩


/-- The entries of the averager that qualify for the success rate at
time `now`. -/
def qualifyingEntries (sa : segmentsAverager) (now : Int) : List segmentCount :=
  (averagerEntries sa).filter (segQualifies now)

/-- Total `emerged` count over the qualifying entries. -/
def qualifyingEmerged (sa : segmentsAverager) (now : Int) : Int :=
  ((qualifyingEntries sa now).map segmentCount.emerged).sum

/-- Total `transcoded` count over the qualifying entries. -/
def qualifyingTranscoded (sa : segmentsAverager) (now : Int) : Int :=
  ((qualifyingEntries sa now).map segmentCount.transcoded).sum

/-- A reachable averager state: two segments fully transcoded without
ever having emerged (`addTranscoded` on unseen sequence numbers, as
`SegmentFullyTranscoded` does when `SegmentEmerged` was never recorded),
then one segment emerged at time 0. -/
def c4State : segmentsAverager :=
  addEmerged (addTranscoded (addTranscoded newAverager 1 false 0) 2 false 0) 3 0

/-! # Theorems -/

/-! ## Byte-level helper lemmas -/

theorem leBytes_length (k v : Nat) : (leBytes k v).length = k := by
  induction k generalizing v with
  | zero => rfl
  | succ k ih => simp [leBytes, ih]

theorem leVal_leBytes (k v : Nat) (h : v < 256 ^ k) : leVal (leBytes k v) = v := by
  induction k generalizing v with
  | zero =>
    simp [pow_zero, Nat.lt_one_iff] at h
    simp [h, leBytes, leVal]
  | succ k ih =>
    have hlt : v / 256 < 256 ^ k := by
      rw [Nat.div_lt_iff_lt_mul (by norm_num)]
      calc v < 256 ^ (k + 1) := h
        _ = 256 ^ k * 256 := by ring
    have hv := ih (v / 256) hlt
    simp only [leBytes, leVal, List.foldr] at *
    rw [hv]
    omega

theorem readN_exact (n : Nat) (a b : List Nat) (h : a.length = n) :
    readN n (a ++ b) = some (a, b) := by
  subst h
  simp [readN, List.take_left, List.drop_left]

/-! ## Helper lemmas for the handler claims (C1, C6, C7) -/

theorem lowBalance_handler (e : EthEnv) (db : List Nat) (r h : Nat) (b : Int)
    (hb : e.balance = .ok b) (hlt : b < broadcastPrice) :
    gotRTMPStreamHandler (some e) db r h = ⟨.error .errBroadcast, db, 0⟩ := by
  simp only [gotRTMPStreamHandler, hb]
  rw [if_pos hlt]

/-! ## C1: insufficient balance -/

/-- C1 (counterexample): with the on-chain client configured, a token
balance of 149 against the broadcast price 150 makes the publish attempt
fail with `ErrBroadcast` — not with an `InsufficientBalance` error, which
the source does not define — while the stream registry is left
unchanged. -/
theorem c1_counterexample :
    (gotRTMPStreamHandler (some ⟨.ok 149, fun _ => .jobSubmitErr, true⟩) [] 7 8).result =
      .error .errBroadcast ∧
    MSError.errBroadcast ≠ MSError.insufficientBalance ∧
    (gotRTMPStreamHandler (some ⟨.ok 149, fun _ => .jobSubmitErr, true⟩) [] 7 8).db = [] :=
  ⟨rfl, by decide, rfl⟩

/-- C1 (amended): for every RTMP publish attempt where the on-chain
client is configured and the token balance is strictly below the
configured broadcast price, the got-RTMP-stream handler fails with
`ErrBroadcast` (the source defines no `InsufficientBalance` error), no
job attempt is made, and the stream registry is unchanged. -/
theorem c1_amended_low_balance (e : EthEnv) (db : List Nat) (r h : Nat) (b : Int)
    (hb : e.balance = .ok b) (hlt : b < broadcastPrice) :
    gotRTMPStreamHandler (some e) db r h = ⟨.error .errBroadcast, db, 0⟩ :=
  lowBalance_handler e db r h b hb hlt

/-- C1 (witness): the amended claim at balance 149, price 150, registry
`[3]`. -/
theorem c1_amended_low_balance_witness :
    gotRTMPStreamHandler (some ⟨.ok 149, fun _ => .jobSubmitErr, true⟩) [3] 7 8 =
      ⟨.error .errBroadcast, [3], 0⟩ :=
  c1_amended_low_balance ⟨.ok 149, fun _ => .jobSubmitErr, true⟩ [3] 7 8 149 rfl (by decide)

/-! ## C2: EOF on segmenter termination -/

/-- C2 (counterexample): when the segmenter returns without an error, the
bridge writes nothing — no final `eof = true` segment reaches the HLS
stream on that exit path. -/
theorem c2_counterexample :
    segmenterBridgeTask none [] = [] ∧
    ¬ ∃ seg ∈ segmenterBridgeTask none [], seg.eof = true := by
  constructor
  · rfl
  · rintro ⟨seg, hm, _⟩
    simp [segmenterBridgeTask] at hm

/-- C2 (amended): the bridge writes the final `eof = true` segment
exactly when the segmenter returns an error; on a successful (nil-error)
return the HLS stream is left as it was, with no EOF write attempted. -/
theorem c2_amended_eof_on_error_only :
    (∀ (e : Unit) (strm : List HLSSegment),
      (segmenterBridgeTask (some e) strm).getLast? = some eofSegment) ∧
    eofSegment.eof = true ∧
    (∀ strm : List HLSSegment, segmenterBridgeTask none strm = strm) := by
  refine ⟨fun e strm => ?_, rfl, fun strm => rfl⟩
  simp [segmenterBridgeTask, hlsWriteSegmentToStream, List.getLast?_concat]

/-! ## C3: the pub/sub envelope -/

/-- C3 (counterexample): the subscriber-side decode is gob decoding, and
it rejects the spec's length-prefixed little-endian record: decoding the
LE envelope of the segment `⟨1, "a", 0.0, [0xAA], false⟩` fails with a
type-id error instead of recovering the segment. -/
theorem c3_counterexample :
    gobDecodeHLSSegment (specEncodeSegment c3SampleA) = .error .badTypeId ∧
    specEncodeSegment c3SampleA ≠ [] := by
  exact ⟨rfl, by decide⟩

/-- C3 (amended): the spec's length-prefixed record `(seq_no u64 LE,
name_len u16 LE, name, duration f64 LE, data_len u32 LE, data, eof u8)`
is self-inverse — decoding the encoding recovers every in-range segment —
but it is not the subscriber's wire format: the subscriber-side decode is
Go gob decoding, which rejects the LE record (shown on a second concrete
segment). -/
theorem c3_amended_envelope (s : HLSSegment)
    (hseq : s.seqNo < 2 ^ 64) (hname : s.name.length < 2 ^ 16)
    (hdur : s.durationBits < 2 ^ 64) (hdata : s.data.length < 2 ^ 32) :
    specDecodeSegment (specEncodeSegment s) = some s ∧
    gobDecodeHLSSegment (specEncodeSegment c3SampleB) = .error .badTypeId := by
  constructor
  · have e1 := readN_exact 8 (leBytes 8 s.seqNo)
      (leBytes 2 s.name.length ++ (s.name ++ (leBytes 8 s.durationBits ++
        (leBytes 4 s.data.length ++ (s.data ++ [if s.eof then 1 else 0])))))
      (leBytes_length 8 _)
    have e2 := readN_exact 2 (leBytes 2 s.name.length)
      (s.name ++ (leBytes 8 s.durationBits ++
        (leBytes 4 s.data.length ++ (s.data ++ [if s.eof then 1 else 0]))))
      (leBytes_length 2 _)
    have e3 := readN_exact s.name.length s.name
      (leBytes 8 s.durationBits ++ (leBytes 4 s.data.length ++
        (s.data ++ [if s.eof then 1 else 0])))
      rfl
    have e4 := readN_exact 8 (leBytes 8 s.durationBits)
      (leBytes 4 s.data.length ++ (s.data ++ [if s.eof then 1 else 0]))
      (leBytes_length 8 _)
    have e5 := readN_exact 4 (leBytes 4 s.data.length)
      (s.data ++ [if s.eof then 1 else 0])
      (leBytes_length 4 _)
    have e6 := readN_exact s.data.length s.data [if s.eof then 1 else 0] rfl
    have e7 := readN_exact 1 [if s.eof then 1 else 0] [] rfl
    have henc : specEncodeSegment s =
        leBytes 8 s.seqNo ++ (leBytes 2 s.name.length ++ (s.name ++ (leBytes 8 s.durationBits ++
          (leBytes 4 s.data.length ++ (s.data ++ [if s.eof then 1 else 0]))))) := by
      simp [specEncodeSegment, List.append_assoc]
    rw [specDecodeSegment, henc, e1]
    simp only [Option.bind_some, Option.some_bind, bind, Option.bind]
    rw [e2]
    simp only
    rw [leVal_leBytes 2 _ hname, e3]
    simp only
    rw [e4]
    simp only
    rw [e5]
    simp only
    rw [leVal_leBytes 4 _ hdata, e6]
    simp only
    rw [List.append_nil] at e7
    rw [e7]
    simp only [if_pos rfl]
    rw [leVal_leBytes 8 _ hseq, leVal_leBytes 8 _ hdur]
    obtain ⟨sq, nm, dbits, dt, eo⟩ := s
    cases eo <;> simp [List.headD]
  · rfl

/-- C3 (witness): the amended claim at the concrete segment
`⟨2, "bc", bits-of-2.0, [0xAA, 0xBB], true⟩`. -/
theorem c3_amended_envelope_witness :
    specDecodeSegment (specEncodeSegment c3SampleB) = some c3SampleB ∧
    gobDecodeHLSSegment (specEncodeSegment c3SampleB) = .error .badTypeId :=
  c3_amended_envelope c3SampleB (by decide) (by decide) (by decide) (by decide)

/-! ## C6: on-chain job creation, retry and revert -/

/-- C6 (confirmed): with the on-chain client configured (balance check
passing, fresh stream id), a failed first job-creation attempt makes the
handler wait for the next round and retry exactly once — a second failure
returns `ErrBroadcast` after exactly two attempts, a second success
returns nil after exactly two attempts, and a failure of the round wait
returns `ErrBroadcast` after one attempt; within each attempt, a mined
receipt whose gas usage equals the gas limit is a revert and yields
`ErrBroadcast`; the handler's outcome depends on no attempt beyond the
second. -/
theorem c6_job_retry_and_revert :
    (∀ (e : EthEnv) (db : List Nat) (r h : Nat) (b : Int) (er : MSError),
      e.balance = .ok b → broadcastPrice ≤ b → getStream db r = false →
      e.waitNextRoundOk = true →
      createBroadcastJob (e.attempts 0) = .error er →
      ((∃ er2, createBroadcastJob (e.attempts 1) = .error er2) →
        (gotRTMPStreamHandler (some e) db r h).result = .error .errBroadcast ∧
        (gotRTMPStreamHandler (some e) db r h).jobAttemptsUsed = 2) ∧
      (∀ t, createBroadcastJob (e.attempts 1) = .ok t →
        (gotRTMPStreamHandler (some e) db r h).result = .ok () ∧
        (gotRTMPStreamHandler (some e) db r h).jobAttemptsUsed = 2)) ∧
    (∀ (e : EthEnv) (db : List Nat) (r h : Nat) (b : Int) (er : MSError),
      e.balance = .ok b → broadcastPrice ≤ b → getStream db r = false →
      e.waitNextRoundOk = false →
      createBroadcastJob (e.attempts 0) = .error er →
      (gotRTMPStreamHandler (some e) db r h).result = .error .errBroadcast ∧
      (gotRTMPStreamHandler (some e) db r h).jobAttemptsUsed = 1) ∧
    (∀ g : Nat, createBroadcastJob (.mined g g) = .error .errBroadcast) ∧
    (∀ (e1 e2 : EthEnv) (db : List Nat) (r h : Nat),
      e1.balance = e2.balance → e1.waitNextRoundOk = e2.waitNextRoundOk →
      e1.attempts 0 = e2.attempts 0 → e1.attempts 1 = e2.attempts 1 →
      gotRTMPStreamHandler (some e1) db r h = gotRTMPStreamHandler (some e2) db r h) := by
  refine ⟨?_, ?_, ?_, ?_⟩
  · intro e db r h b er hb hge hfresh hwait h0
    have hnlt : ¬ b < broadcastPrice := by omega
    constructor
    · rintro ⟨er2, h1⟩
      have hres : ∃ db2, gotRTMPStreamHandler (some e) db r h = ⟨.error .errBroadcast, db2, 2⟩ := by
        refine ⟨(addStream (db ++ [r]) h).getD (db ++ [r]), ?_⟩
        have hmem : r ∉ db := by simpa [getStream] using hfresh
        simp [gotRTMPStreamHandler, hb, hnlt, addStream, h0, hwait, h1, hmem, hfresh]
      obtain ⟨db2, hres⟩ := hres
      rw [hres]
      exact ⟨rfl, rfl⟩
    · intro t h1
      have hres : ∃ db2, gotRTMPStreamHandler (some e) db r h = ⟨.ok (), db2, 2⟩ := by
        refine ⟨(addStream (db ++ [r]) h).getD (db ++ [r]), ?_⟩
        have hmem : r ∉ db := by simpa [getStream] using hfresh
        simp [gotRTMPStreamHandler, hb, hnlt, addStream, h0, hwait, h1, hmem, hfresh]
      obtain ⟨db2, hres⟩ := hres
      rw [hres]
      exact ⟨rfl, rfl⟩
  · intro e db r h b er hb hge hfresh hwait h0
    have hnlt : ¬ b < broadcastPrice := by omega
    have hres : ∃ db2, gotRTMPStreamHandler (some e) db r h = ⟨.error .errBroadcast, db2, 1⟩ := by
      refine ⟨(addStream (db ++ [r]) h).getD (db ++ [r]), ?_⟩
      have hmem : r ∉ db := by simpa [getStream] using hfresh
      simp [gotRTMPStreamHandler, hb, hnlt, addStream, h0, hwait, hmem, hfresh]
    obtain ⟨db2, hres⟩ := hres
    rw [hres]
    exact ⟨rfl, rfl⟩
  · intro g
    simp [createBroadcastJob]
  · intro e1 e2 db r h hbal hwait ha0 ha1
    simp only [gotRTMPStreamHandler, hbal, hwait, ha0, ha1]

/-- C6 (witness): two failing attempts at balance 150 on an empty
registry give `ErrBroadcast` after exactly two job attempts. -/
theorem c6_job_retry_and_revert_witness :
    (gotRTMPStreamHandler (some ⟨.ok 150, fun _ => .jobSubmitErr, true⟩) [] 7 8).result =
      .error .errBroadcast ∧
    (gotRTMPStreamHandler (some ⟨.ok 150, fun _ => .jobSubmitErr, true⟩) [] 7 8).jobAttemptsUsed = 2 :=
  (c6_job_retry_and_revert.1 ⟨.ok 150, fun _ => .jobSubmitErr, true⟩ [] 7 8 150 .errBroadcast
    rfl (by decide) rfl rfl rfl).1 ⟨.errBroadcast, rfl⟩

/-! ## C7: duplicate publish -/

/-- C7 (counterexample): with the id already registered but the balance
precheck failing (balance 0 below price 150), the second publish fails
with `ErrBroadcast`, not with the `AlreadyExists` error the claim
names. -/
theorem c7_counterexample :
    (gotRTMPStreamHandler (some ⟨.ok 0, fun _ => .jobSubmitErr, true⟩) [7] 7 8).result =
      .error .errBroadcast ∧
    MSError.errBroadcast ≠ MSError.errAlreadyExists ∧
    getStream [7] 7 = true :=
  ⟨rfl, by decide, by decide⟩

/-- C7 (amended): a publish of an id already present in the registry
always fails and leaves the registry unchanged — hence at most one
publish session per stream id — and it fails with the `AlreadyExists`
error precisely when the balance precheck passes (no on-chain client, or
a balance at least the broadcast price); a failing precheck yields
`ErrBroadcast` first. -/
theorem c7_amended_duplicate_publish (eth : Option EthEnv) (db : List Nat) (r h : Nat)
    (hdup : getStream db r = true) :
    (gotRTMPStreamHandler eth db r h).db = db ∧
    (∃ er, (gotRTMPStreamHandler eth db r h).result = .error er) ∧
    ((eth = none ∨ ∃ e b, eth = some e ∧ e.balance = .ok b ∧ broadcastPrice ≤ b) →
      (gotRTMPStreamHandler eth db r h).result = .error .errAlreadyExists) := by
  match eth with
  | none =>
    have hres : gotRTMPStreamHandler none db r h = ⟨.error .errAlreadyExists, db, 0⟩ := by
      simp only [gotRTMPStreamHandler, hdup, if_true]
    rw [hres]
    exact ⟨rfl, ⟨.errAlreadyExists, rfl⟩, fun _ => rfl⟩
  | some e =>
    match he : e.balance with
    | .error u =>
      have hres : gotRTMPStreamHandler (some e) db r h = ⟨.error .errBroadcast, db, 0⟩ := by
        simp only [gotRTMPStreamHandler, he]
      rw [hres]
      refine ⟨rfl, ⟨.errBroadcast, rfl⟩, ?_⟩
      rintro (h1 | ⟨e2, b2, he2, hb2, hge⟩)
      · exact absurd h1 (by simp)
      · rw [Option.some_inj] at he2
        rw [← he2, he] at hb2
        exact absurd hb2 (by simp)
    | .ok b =>
      by_cases hlt : b < broadcastPrice
      · have hres : gotRTMPStreamHandler (some e) db r h = ⟨.error .errBroadcast, db, 0⟩ := by
          simp only [gotRTMPStreamHandler, he]
          rw [if_pos hlt]
        rw [hres]
        refine ⟨rfl, ⟨.errBroadcast, rfl⟩, ?_⟩
        rintro (h1 | ⟨e2, b2, he2, hb2, hge⟩)
        · exact absurd h1 (by simp)
        · rw [Option.some_inj] at he2
          rw [← he2, he] at hb2
          rw [Except.ok.injEq] at hb2
          omega
      · have hres : gotRTMPStreamHandler (some e) db r h = ⟨.error .errAlreadyExists, db, 0⟩ := by
          simp only [gotRTMPStreamHandler, he]
          rw [if_neg hlt]
          simp only [hdup, if_true]
        rw [hres]
        exact ⟨rfl, ⟨.errAlreadyExists, rfl⟩, fun _ => rfl⟩

/-- C7 (witness): the amended claim with no on-chain client and registry
`[7]`: the duplicate publish fails with `AlreadyExists` and the registry
is untouched. -/
theorem c7_amended_duplicate_publish_witness :
    (gotRTMPStreamHandler none [7] 7 8).result = .error .errAlreadyExists ∧
    (gotRTMPStreamHandler none [7] 7 8).db = [7] :=
  ⟨(c7_amended_duplicate_publish none [7] 7 8 (by decide)).2.2 (Or.inl rfl),
    (c7_amended_duplicate_publish none [7] 7 8 (by decide)).1⟩

/-! ## C8: ethOrchToDBOrch totality -/

/-- C8 (code bug): the executed body of `ethOrchToDBOrch` dereferences
the activation and deactivation round pointers unconditionally, so a
non-nil transcoder record with either round absent panics instead of
being converted with the 0 / max-int64 defaults the claim (and the dead
nil-guard block after the `return`) intends; with both rounds present the
conversion succeeds, and a nil record maps to nil. -/
theorem c8_nil_round_dereference :
    ethOrchToDBOrch (some ⟨6, 9, none, some 5⟩) = .error .nilDeref ∧
    ethOrchToDBOrch (some ⟨6, 9, some 3, none⟩) = .error .nilDeref ∧
    ethOrchToDBOrch (some ⟨6, 9, some 3, some 5⟩) = .ok (some ⟨6, 9, 3, 5⟩) ∧
    ethOrchToDBOrch none = .ok none := by
  refine ⟨rfl, rfl, ?_, rfl⟩
  have h3 : bigIntToInt64 3 = 3 := by decide
  have h5 : bigIntToInt64 5 = 5 := by decide
  simp [ethOrchToDBOrch, h3, h5]

/-! ## C9: the EOF-first nil buffer dereference -/

/-- C9 (code bug): in the media-playlist subscribe callback, when the
very first delivered message carries `eof = true` — before any segment
write has created the buffer — the `WriteEOF` call dereferences the nil
buffer (a runtime panic), contradicting the implicit claim that the
buffer is non-nil on that branch; with a buffer present the EOF branch
succeeds, and a non-EOF first message also succeeds by creating the
buffer first. -/
theorem c9_eof_first_nil_dereference :
    mediaPlaylistSubscribeCallback ⟨none, false⟩ [] true = .error .nilDeref ∧
    mediaPlaylistSubscribeCallback ⟨some newHLSBuffer, false⟩ [] true =
      .ok ⟨some ⟨[zeroSegment], true⟩, true⟩ ∧
    (∀ d : List Nat, ∃ st', mediaPlaylistSubscribeCallback ⟨none, false⟩ d false = .ok st') :=
  ⟨rfl, rfl, fun _ => ⟨_, rfl⟩⟩

/-! ## Helper lemmas for parseStreamID (C10) -/

theorem goWordChar_ne_slash {c : Char} (hc : goWordChar c = true) : ('/' == c) = false := by
  by_cases h : c = '/'
  · subst h
    exact absurd hc (by decide)
  · simpa using fun he => h he.symm

theorem marker_not_prefix_of_word {l : List Char} {c : Char} (hc : goWordChar c = true) :
    streamPathMarker.isPrefixOf (c :: l) = false := by
  show (('/' :: ['s', 't', 'r', 'e', 'a', 'm', '/']).isPrefixOf (c :: l)) = false
  simp only [List.isPrefixOf]
  rw [goWordChar_ne_slash hc]
  rfl

theorem replaceAll_word (fuel : Nat) (l : List Char) (hl : ∀ c ∈ l, goWordChar c = true) :
    replaceAllDrop streamPathMarker fuel l = l := by
  induction fuel generalizing l with
  | zero => rfl
  | succ f ih =>
    cases l with
    | nil => rfl
    | cons c rest =>
      have hc := hl c (by simp)
      simp only [replaceAllDrop, marker_not_prefix_of_word hc, Bool.false_eq_true, if_false]
      rw [ih rest fun x hx => hl x (by simp [hx])]

theorem findRegexMatch_marker (s : List Char) :
    findRegexMatch (streamPathMarker ++ s) = some (streamPathMarker ++ s.takeWhile goWordChar) := by
  have hpref : streamPathMarker.isPrefixOf (streamPathMarker ++ s) = true :=
    List.isPrefixOf_iff_prefix.mpr (List.prefix_append _ _)
  have hmatch : regexMatchAt (streamPathMarker ++ s) =
      some (streamPathMarker ++ s.takeWhile goWordChar) := by
    rw [regexMatchAt, if_pos hpref, List.drop_left]
  conv_lhs => rw [show streamPathMarker ++ s = '/' :: (['s', 't', 'r', 'e', 'a', 'm', '/'] ++ s) from rfl]
  rw [findRegexMatch]
  rw [show ('/' :: (['s', 't', 'r', 'e', 'a', 'm', '/'] ++ s)) = streamPathMarker ++ s from rfl]
  rw [hmatch]

theorem replaceAllDrop_marker_step (f : Nat) (l : List Char) :
    replaceAllDrop streamPathMarker (f + 1) (streamPathMarker ++ l) =
      replaceAllDrop streamPathMarker f l := by
  have hpref : streamPathMarker.isPrefixOf (streamPathMarker ++ l) = true :=
    List.isPrefixOf_iff_prefix.mpr (List.prefix_append _ _)
  rw [show replaceAllDrop streamPathMarker (f + 1) (streamPathMarker ++ l) =
    (if streamPathMarker.isPrefixOf (streamPathMarker ++ l) = true then
      replaceAllDrop streamPathMarker f ((streamPathMarker ++ l).drop streamPathMarker.length)
    else '/' :: replaceAllDrop streamPathMarker f (List.tail (streamPathMarker ++ l))) from rfl]
  rw [if_pos hpref, List.drop_left]

theorem parseStreamID_marker (s : List Char) :
    parseStreamID (streamPathMarker ++ s) = s.takeWhile goWordChar := by
  rw [parseStreamID, findRegexMatch_marker]
  show replaceAllDrop streamPathMarker ((streamPathMarker ++ s.takeWhile goWordChar).length + 1)
      (streamPathMarker ++ s.takeWhile goWordChar) = s.takeWhile goWordChar
  have hlen : (streamPathMarker ++ s.takeWhile goWordChar).length + 1 =
      (s.takeWhile goWordChar).length + 8 + 1 := by
    simp [streamPathMarker]
  rw [hlen]
  rw [replaceAllDrop_marker_step]
  exact replaceAll_word _ _ fun c hc => List.mem_takeWhile_imp hc

/-! ## C10: parseStreamID -/

/-- C10 (confirmed): for every request path of the form
`"/stream/" ++ s`, `parseStreamID` returns exactly the maximal leading
run of ASCII letters and digits of `s` — any other character, including
the `|` separator of the spec's StreamID format, terminates the id — so
`"/stream/node1|abc"` parses to `"node1"`, truncated at the first
`|`. -/
theorem c10_parse_stream_id :
    (∀ s : List Char, parseStreamID (streamPathMarker ++ s) = s.takeWhile goWordChar) ∧
    goWordChar '|' = false ∧
    parseStreamID (streamPathMarker ++ ['n', 'o', 'd', 'e', '1', '|', 'a', 'b', 'c']) =
      ['n', 'o', 'd', 'e', '1'] := by
  refine ⟨parseStreamID_marker, by decide, ?_⟩
  rw [parseStreamID_marker]
  decide

/-! ## Generic ring-walk machinery (shared by C4 and C5) -/

theorem cyc_single {α : Type} (l : List α) (hd : Int) (d : α)
    (h0 : 0 ≤ hd) (hn : hd < l.length) :
    cyc l hd hd = [l.getD hd.toNat d] := by
  rw [cyc, if_pos le_rfl]
  have ht : hd.toNat < l.length := by omega
  have h1 : (hd - hd + 1).toNat = 1 := by omega
  rw [h1, List.drop_eq_getElem_cons ht, List.take_cons (by omega), List.take_zero]
  rw [List.getD_eq_getElem l d ht]

theorem cyc_decomp {α : Type} (l : List α) (hd i : Int) (d : α)
    (hi0 : 0 ≤ i) (hin : i < l.length) (hh0 : 0 ≤ hd) (hhn : hd < l.length)
    (hne : i ≠ hd) :
    cyc l hd i = l.getD i.toNat d :: cyc l hd (wrapIdx l.length i) := by
  have hit : i.toNat < l.length := by omega
  rw [List.getD_eq_getElem l d hit]
  by_cases hle : i ≤ hd
  · have hlt : i < hd := lt_of_le_of_ne hle hne
    have hwrap : wrapIdx l.length i = i + 1 := by
      simp only [wrapIdx]
      rw [if_neg (by omega)]
    rw [hwrap, cyc, if_pos hle, cyc, if_pos (by omega)]
    have h1 : (hd - i + 1).toNat = (hd - (i + 1) + 1).toNat + 1 := by omega
    have h2 : (i + 1).toNat = i.toNat + 1 := by omega
    rw [h1, h2, List.drop_eq_getElem_cons hit, List.take_cons (by omega)]
    simp only [Nat.add_sub_cancel]
  · have hlt : hd < i := by omega
    by_cases hend : i + 1 = (l.length : Int)
    · have hwrap : wrapIdx l.length i = 0 := by
        simp only [wrapIdx]
        rw [if_pos hend]
      rw [hwrap, cyc, if_neg (by omega), cyc, if_pos hh0]
      have hdrop : l.drop i.toNat = [l[i.toNat]] := by
        rw [List.drop_eq_getElem_cons hit]
        have h3 : l.drop (i.toNat + 1) = [] := List.drop_of_length_le (by omega)
        rw [h3]
      rw [hdrop]
      simp only [Int.toNat_zero, List.drop_zero, List.cons_append, List.nil_append, sub_zero]
    · have hwrap : wrapIdx l.length i = i + 1 := by
        simp only [wrapIdx]
        rw [if_neg hend]
      have h2 : (i + 1).toNat = i.toNat + 1 := by omega
      rw [hwrap, cyc, if_neg (by omega), cyc, if_neg (by omega), h2,
        List.drop_eq_getElem_cons hit, List.cons_append]

theorem distTo_pos {n : Nat} {hd i : Int}
    (hi0 : 0 ≤ i) (hin : i < n) (hh0 : 0 ≤ hd) (hhn : hd < n) (hne : i ≠ hd) :
    1 ≤ distTo n hd i := by
  rw [distTo]
  by_cases hle : i ≤ hd
  · rw [if_pos hle]; omega
  · rw [if_neg hle]; omega

theorem distTo_wrap {n : Nat} {hd i : Int}
    (hi0 : 0 ≤ i) (hin : i < n) (hh0 : 0 ≤ hd) (hhn : hd < n) (hne : i ≠ hd) :
    distTo n hd (wrapIdx n i) = distTo n hd i - 1 := by
  simp only [wrapIdx]
  by_cases hend : i + 1 = (n : Int)
  · rw [if_pos hend, distTo, distTo, if_pos hh0]
    rw [if_neg (by omega)]
    omega
  · rw [if_neg hend, distTo, distTo]
    by_cases hle : i ≤ hd
    · rw [if_pos (by omega : i + 1 ≤ hd), if_pos hle]
      omega
    · rw [if_neg (by omega : ¬ i + 1 ≤ hd), if_neg hle]
      omega

theorem wrapIdx_range {n : Nat} {i : Int} (hi0 : 0 ≤ i) (hin : i < n) :
    0 ≤ wrapIdx n i ∧ wrapIdx n i < n := by
  simp only [wrapIdx]
  by_cases hend : i + 1 = (n : Int)
  · rw [if_pos hend]; omega
  · rw [if_neg hend]; omega

theorem cycWalk_eq_cyc {α : Type} (l : List α) (hd : Int) (d : α) :
    ∀ (fuel : Nat) (i : Int), 0 ≤ i → i < l.length → 0 ≤ hd → hd < l.length →
    distTo l.length hd i + 1 ≤ fuel →
    cycWalk l hd d fuel i = cyc l hd i := by
  intro fuel
  induction fuel with
  | zero => intro i _ _ _ _ hf; omega
  | succ f ih =>
    intro i hi0 hin hh0 hhn hf
    rw [cycWalk]
    by_cases hne : i = hd
    · subst hne
      rw [if_pos rfl, cyc_single l i d hi0 hin]
    · rw [if_neg hne]
      have hd1 := distTo_pos hi0 hin hh0 hhn hne
      have hd2 := distTo_wrap hi0 hin hh0 hhn hne
      obtain ⟨hw0, hwn⟩ := wrapIdx_range hi0 hin
      rw [ih (wrapIdx l.length i) hw0 hwn hh0 hhn (by omega)]
      exact (cyc_decomp l hd i d hi0 hin hh0 hhn hne).symm

theorem sAdvance_eq_wrapIdx (sa : segmentsAverager) (i : Int) :
    sAdvance sa i = wrapIdx sa.segments.length i := rfl

theorem srLoop_fold (sa : segmentsAverager) (now : Int) :
    ∀ (fuel : Nat) (i : Int) (em tr : Int),
    srLoop sa now fuel i em tr =
      (em + (((cycWalk sa.segments sa.endIdx default fuel i).filter
          (segQualifies now)).map segmentCount.emerged).sum,
       tr + (((cycWalk sa.segments sa.endIdx default fuel i).filter
          (segQualifies now)).map segmentCount.transcoded).sum) := by
  intro fuel
  induction fuel with
  | zero =>
    intro i em tr
    simp [srLoop, cycWalk]
  | succ f ih =>
    intro i em tr
    simp only [srLoop, cycWalk]
    by_cases hi : i = sa.endIdx
    · rw [if_pos hi, if_pos hi, List.filter_cons]
      by_cases hq : segQualifies now (sa.segments.getD i.toNat default)
      · rw [if_pos hq, if_pos hq, if_pos hq]
        simp
      · rw [if_neg hq, if_neg hq, if_neg hq]
        simp
    · rw [if_neg hi, if_neg hi, ← sAdvance_eq_wrapIdx, ih (sAdvance sa i), List.filter_cons]
      by_cases hq : segQualifies now (sa.segments.getD i.toNat default)
      · rw [if_pos hq, if_pos hq, if_pos hq]
        simp only [List.map_cons, List.sum_cons, Prod.mk.injEq]
        constructor <;> ring
      · rw [if_neg hq, if_neg hq, if_neg hq]

theorem distTo_lt {n : Nat} {hd i : Int}
    (hi0 : 0 ≤ i) (hin : i < n) (hh0 : 0 ≤ hd) (hhn : hd < n) :
    distTo n hd i < n := by
  rw [distTo]
  by_cases hle : i ≤ hd
  · rw [if_pos hle]; omega
  · rw [if_neg hle]; omega

theorem successRate_spec (sa : segmentsAverager) (now : Int)
    (hwf : sa.endIdx = -1 ∨
      (0 ≤ sa.start ∧ sa.start < sa.segments.length ∧
        0 ≤ sa.endIdx ∧ sa.endIdx < sa.segments.length)) :
    successRate sa now =
      if 0 < qualifyingEmerged sa now then
        ((qualifyingTranscoded sa now : ℚ) / (qualifyingEmerged sa now : ℚ), true)
      else (1, false) := by
  rcases hwf with hend | ⟨hs0, hsn, he0, hen⟩
  · have hq : qualifyingEmerged sa now = 0 := by
      simp [qualifyingEmerged, qualifyingEntries, averagerEntries, hend]
    rw [successRate, if_pos hend, hq, if_neg (by omega)]
  · have hne : ¬ sa.endIdx = -1 := by omega
    have hfuel : distTo sa.segments.length sa.endIdx sa.start + 1 ≤ sa.segments.length :=
      distTo_lt hs0 hsn he0 hen
    have hkey : srLoop sa now sa.segments.length sa.start 0 0 =
        (qualifyingEmerged sa now, qualifyingTranscoded sa now) := by
      rw [srLoop_fold, cycWalk_eq_cyc sa.segments sa.endIdx default sa.segments.length sa.start
        hs0 hsn he0 hen hfuel]
      simp [qualifyingEmerged, qualifyingTranscoded, qualifyingEntries, averagerEntries, hne]
    rw [successRate, if_neg hne]
    simp only [hkey]


/-! ## C4: success rate bounds -/

/-- C4 (amended): for every well-formed averager state, the rate
reported by `successRate` equals qualifying-transcoded divided by
qualifying-emerged whenever the latter is positive and is 1 otherwise
(in particular when no entries qualify); it is reported (`has`) exactly
when the qualifying emerged count is positive; it is nonnegative when
the qualifying transcoded counts are, and at most 1 under the additional
invariant that no entry has transcoded exceeding emerged — an invariant
the code can violate (see the counterexample), which is what the
counterexample exploits; the census-level rate over an empty success map
is 1. -/
theorem c4_amended (sa : segmentsAverager) (now : Int)
    (hwf : sa.endIdx = -1 ∨
      (0 ≤ sa.start ∧ sa.start < sa.segments.length ∧
        0 ≤ sa.endIdx ∧ sa.endIdx < sa.segments.length)) :
    ((successRate sa now).2 = true ↔ 0 < qualifyingEmerged sa now) ∧
    (0 < qualifyingEmerged sa now →
      (successRate sa now).1 =
        (qualifyingTranscoded sa now : ℚ) / (qualifyingEmerged sa now : ℚ)) ∧
    (qualifyingEmerged sa now ≤ 0 → (successRate sa now).1 = 1) ∧
    ((∀ it ∈ qualifyingEntries sa now, 0 ≤ it.transcoded) → 0 ≤ (successRate sa now).1) ∧
    ((∀ it ∈ qualifyingEntries sa now, it.transcoded ≤ it.emerged) →
      0 < qualifyingEmerged sa now → (successRate sa now).1 ≤ 1) ∧
    censusSuccessRate [] now = 1 := by
  have hcen : censusSuccessRate [] now = 1 := by
    rw [censusSuccessRate]
    simp
  rw [successRate_spec sa now hwf]
  by_cases hpos : 0 < qualifyingEmerged sa now
  · rw [if_pos hpos]
    refine ⟨by simp [hpos], fun _ => rfl, fun hle => absurd hpos (by omega), ?_, ?_, hcen⟩
    · intro hnn
      have htr : 0 ≤ qualifyingTranscoded sa now :=
        List.sum_nonneg (by
          intro x hx
          obtain ⟨it, hit, hxe⟩ := List.mem_map.mp hx
          exact hxe ▸ hnn it hit)
      exact div_nonneg (by exact_mod_cast htr) (by exact_mod_cast le_of_lt hpos)
    · intro hmono _
      have hle : qualifyingTranscoded sa now ≤ qualifyingEmerged sa now :=
        List.sum_le_sum hmono
      rw [div_le_one (by exact_mod_cast hpos)]
      exact_mod_cast hle
  · rw [if_neg hpos]
    exact ⟨by simp [hpos], fun h => absurd h hpos, fun _ => rfl, fun _ => by norm_num,
      fun _ h => absurd h hpos, hcen⟩

/-- C4 (counterexample): a reachable averager state — two segments
marked transcoded without having emerged, plus one stale emerged
segment — yields a reported success rate of 2, violating the claimed
`rate ≤ 1` bound. -/
theorem c4_counterexample :
    1 < (successRate c4State 9000).1 ∧ (successRate c4State 9000).2 = true := by
  have hp : srLoop c4State 9000 c4State.segments.length c4State.start 0 0 = (1, 2) := by
    decide
  have hne : ¬ c4State.endIdx = -1 := by decide
  rw [successRate, if_neg hne]
  simp only [hp]
  norm_num

/-- C4 (witness): the amended claim at the fresh averager: no entries
qualify and the rate is 1; the census rate over the empty map is 1. -/
theorem c4_witness :
    (successRate newAverager 0).1 = 1 ∧ censusSuccessRate [] 0 = 1 := by
  have h := c4_amended newAverager 0 (Or.inl rfl)
  exact ⟨h.2.2.1 (by decide), h.2.2.2.2.2⟩

/-! ## Ring array and moving average (C5) -/

theorem take_set_last {α : Type} (l : List α) (m : Nat) (x : α) (h : m < l.length) :
    (l.set m x).take (m + 1) = l.take m ++ [x] := by
  rw [List.set_eq_take_cons_drop x h, List.take_append_eq_append_take]
  have h1 : (l.take m).length = m := by
    rw [List.length_take]
    omega
  rw [h1]
  have h2 : m + 1 - m = 1 := by omega
  rw [h2, List.take_of_length_le (by rw [h1]; omega ), List.take_cons (by omega), List.take_zero]

theorem drop_set_of_lt {α : Type} (l : List α) (m n : Nat) (x : α) (h : m < n) :
    (l.set m x).drop n = l.drop n := by
  rw [List.drop_set, if_pos h]

theorem ringWF_new (size : Nat) (h : 1 < size) : ringWF (newRingArray size) := by
  constructor
  · simp [newRingArray, h]
  · left
    exact ⟨rfl, rfl⟩

theorem ringToList_new (size : Nat) : ringToList (newRingArray size) = [] := by
  rw [ringToList, if_pos]
  left
  rfl

theorem ringPush_empty (ra : ringArray) (t : Int) (v : ℚ) (hwf : ringWF ra)
    (hh : ra.head = -1) (ht : ra.tail = -1) :
    ringWF (ringPush ra t v) ∧
    ringToList (ringPush ra t v) = ringToList ra ++ [⟨t, v⟩] := by
  obtain ⟨hlen, _⟩ := hwf
  have hres : ringPush ra t v = ⟨ra.data.set 0 ⟨t, v⟩, 0, 0⟩ := by
    rw [ringPush, if_pos ⟨hh, ht⟩]
  rw [hres]
  constructor
  · refine ⟨by simpa using hlen, Or.inr ?_⟩
    simp only [List.length_set]
    norm_num
    omega
  · rw [show ringToList ra = [] from by rw [ringToList, if_pos (Or.inl hh)]]
    rw [ringToList]
    norm_num
    rw [cyc, if_pos (le_refl (0 : Int))]
    norm_num
    have h2 := take_set_last ra.data 0 ⟨t, v⟩ (by omega)
    simpa using h2

theorem ringToList_mk (D : List timeValue) (H T : Int) :
    ringToList ⟨D, H, T⟩ = if H = -1 ∨ T = -1 then [] else cyc D H T := rfl

theorem ringPush_spec (ra : ringArray) (t : Int) (v : ℚ) (hwf : ringWF ra) :
    ringWF (ringPush ra t v) ∧
    ringToList (ringPush ra t v) = ringToList ra ++ [⟨t, v⟩] := by
  obtain ⟨hlen, hidx⟩ := hwf
  rcases hidx with ⟨hh, ht⟩ | ⟨hh0, hhn, ht0, htn⟩
  · exact ringPush_empty ra t v ⟨hlen, Or.inl ⟨hh, ht⟩⟩ hh ht
  · have hne : ¬(ra.head = -1 ∧ ra.tail = -1) := by omega
    have holdne : ¬(ra.head = -1 ∨ ra.tail = -1) := by omega
    rw [show ringToList ra = cyc ra.data ra.head ra.tail from by rw [ringToList, if_neg holdne]]
    by_cases hG : ra.head + 1 = ra.tail ∨ (ra.head + 1 = (ra.data.length : Int) ∧ ra.tail = 0)
    · by_cases hlt : ra.tail < ra.head
      · -- flat-full grow: tail = 0, head + 1 = length
        have ht0' : ra.tail = 0 := by
          rcases hG with h | ⟨_, h2⟩
          · omega
          · exact h2
        have hh1 : ra.head + 1 = (ra.data.length : Int) := by
          rcases hG with h | ⟨h1, _⟩
          · omega
          · exact h1
        have hslicelen : ((ra.data.drop ra.tail.toNat).take (ra.head - ra.tail + 1).toNat).length =
            ra.data.length := by
          rw [List.length_take, List.length_drop]
          omega
        have hlen1 : (((ra.data.drop ra.tail.toNat).take (ra.head - ra.tail + 1).toNat) ++
            List.replicate (2 * ra.data.length - (ra.head - ra.tail + 1).toNat) default).length =
            2 * ra.data.length := by
          rw [List.length_append, hslicelen, List.length_replicate]
          omega
        have hres : ringPush ra t v =
            ⟨(((ra.data.drop ra.tail.toNat).take (ra.head - ra.tail + 1).toNat) ++
                List.replicate (2 * ra.data.length - (ra.head - ra.tail + 1).toNat) default).set
                (ra.head - ra.tail + 1).toNat ⟨t, v⟩,
              ra.head - ra.tail + 1, 0⟩ := by
          rw [ringPush, if_neg hne]
          simp only []
          rw [if_pos hG, if_pos hlt]
          simp only []
          rw [if_neg (by rw [hlen1]; omega)]
        rw [hres]
        have hsimp : (ra.data.drop ra.tail.toNat).take (ra.head - ra.tail + 1).toNat = ra.data := by
          rw [ht0']
          simp only [Int.toNat_zero, List.drop_zero, sub_zero]
          exact List.take_of_length_le (by omega)
        constructor
        · refine ⟨?_, Or.inr ?_⟩
          · simp only [List.length_set, hlen1]
            omega
          · simp only [List.length_set, hlen1]
            omega
        · rw [ringToList_mk, if_neg (by omega)]
          rw [cyc, if_pos (by omega : (0 : Int) ≤ ra.head - ra.tail + 1)]
          rw [cyc, if_pos (by omega : ra.tail ≤ ra.head)]
          rw [show (0 : Int).toNat = 0 from rfl, List.drop_zero]
          have harith : (ra.head - ra.tail + 1 - 0 + 1).toNat = (ra.head - ra.tail + 1).toNat + 1 := by
            omega
          rw [harith, take_set_last _ _ _ (by rw [hlen1]; omega), hsimp]
          have h3 : (ra.head - ra.tail + 1).toNat = ra.data.length := by omega
          rw [h3, List.take_left]
      · -- wrapped-full grow: tail = head + 1
        have htl : ra.tail = ra.head + 1 := by
          rcases hG with h | ⟨h1, h2⟩
          · omega
          · omega
        have hlen1 : (ra.data.drop ra.tail.toNat ++ (ra.data.take (ra.head + 1).toNat ++
            List.replicate (2 * ra.data.length -
              ((ra.data.length - ra.tail.toNat) + (ra.head + 1).toNat)) default)).length =
            2 * ra.data.length := by
          rw [List.length_append, List.length_append, List.length_drop, List.length_take,
            List.length_replicate]
          omega
        have hres : ringPush ra t v =
            ⟨(ra.data.drop ra.tail.toNat ++ (ra.data.take (ra.head + 1).toNat ++
                List.replicate (2 * ra.data.length -
                  ((ra.data.length - ra.tail.toNat) + (ra.head + 1).toNat)) default)).set
                ((ra.data.length : Int) - ra.tail + ra.head + 1).toNat ⟨t, v⟩,
              (ra.data.length : Int) - ra.tail + ra.head + 1, 0⟩ := by
          rw [ringPush, if_neg hne]
          simp only []
          rw [if_pos hG, if_neg hlt]
          simp only []
          rw [if_neg (by rw [List.append_assoc, hlen1]; omega)]
          rw [List.append_assoc]
        rw [hres]
        have hAB : (ra.data.drop ra.tail.toNat ++ ra.data.take (ra.head + 1).toNat).length =
            ra.data.length := by
          rw [List.length_append, List.length_drop, List.length_take]
          omega
        constructor
        · refine ⟨?_, Or.inr ?_⟩
          · simp only [List.length_set, hlen1]
            omega
          · simp only [List.length_set, hlen1]
            omega
        · rw [ringToList_mk, if_neg (by omega)]
          rw [cyc, if_pos (by omega : (0 : Int) ≤ (ra.data.length : Int) - ra.tail + ra.head + 1)]
          rw [show (0 : Int).toNat = 0 from rfl, List.drop_zero]
          have harith : ((ra.data.length : Int) - ra.tail + ra.head + 1 - 0 + 1).toNat =
              ((ra.data.length : Int) - ra.tail + ra.head + 1).toNat + 1 := by
            omega
          rw [harith, take_set_last _ _ _ (by rw [hlen1]; omega)]
          rw [cyc, if_neg (by omega : ¬ ra.tail ≤ ra.head)]
          rw [← List.append_assoc]
          have h3 : ((ra.data.length : Int) - ra.tail + ra.head + 1).toNat =
              (ra.data.drop ra.tail.toNat ++ ra.data.take (ra.head + 1).toNat).length := by
            rw [hAB]
            omega
          rw [h3, List.take_left]
    · -- no grow
      by_cases hwrap : ra.head + 1 = (ra.data.length : Int)
      · -- wrap to slot 0; tail cannot be 0 here
        have htpos : ra.tail ≠ 0 := by
          intro h0
          exact hG (Or.inr ⟨hwrap, h0⟩)
        have hres : ringPush ra t v =
            ⟨ra.data.set (0 : Int).toNat ⟨t, v⟩, 0, ra.tail⟩ := by
          rw [ringPush, if_neg hne]
          simp only []
          rw [if_neg hG, if_pos hwrap]
        rw [hres]
        constructor
        · refine ⟨?_, Or.inr ?_⟩
          · simp only [List.length_set]
            omega
          · simp only [List.length_set]
            omega
        · rw [ringToList_mk, if_neg (by omega)]
          rw [cyc, if_neg (by omega : ¬ ra.tail ≤ (0 : Int))]
          rw [show (0 : Int).toNat = 0 from rfl]
          rw [drop_set_of_lt _ _ _ _ (by omega : 0 < ra.tail.toNat)]
          rw [show (0 + 1 : Int).toNat = 0 + 1 from rfl]
          rw [take_set_last _ _ _ (by omega), List.take_zero, List.nil_append]
          rw [cyc, if_pos (by omega : ra.tail ≤ ra.head)]
          rw [List.take_of_length_le (by rw [List.length_drop]; omega)]
      · -- no wrap: plain insert at head + 1
        have hres : ringPush ra t v =
            ⟨ra.data.set (ra.head + 1).toNat ⟨t, v⟩, ra.head + 1, ra.tail⟩ := by
          rw [ringPush, if_neg hne]
          simp only []
          rw [if_neg hG, if_neg hwrap]
        rw [hres]
        constructor
        · refine ⟨?_, Or.inr ?_⟩
          · simp only [List.length_set]
            omega
          · simp only [List.length_set]
            omega
        · rw [ringToList_mk, if_neg (by omega)]
          by_cases hflat : ra.tail ≤ ra.head
          · rw [cyc, if_pos (by omega : ra.tail ≤ ra.head + 1)]
            rw [List.drop_set, if_neg (by omega : ¬ (ra.head + 1).toNat < ra.tail.toNat)]
            have harith : (ra.head + 1 - ra.tail + 1).toNat =
                ((ra.head + 1).toNat - ra.tail.toNat) + 1 := by
              omega
            rw [harith]
            rw [take_set_last _ _ _ (by rw [List.length_drop]; omega)]
            rw [cyc, if_pos hflat]
            have h4 : (ra.head + 1).toNat - ra.tail.toNat = (ra.head - ra.tail + 1).toNat := by
              omega
            rw [h4]
          · have hhlt : ra.head + 1 < ra.tail := by
              have : ¬ ra.head + 1 = ra.tail := fun h => hG (Or.inl h)
              omega
            rw [cyc, if_neg (by omega : ¬ ra.tail ≤ ra.head + 1)]
            rw [drop_set_of_lt _ _ _ _ (by omega : (ra.head + 1).toNat < ra.tail.toNat)]
            have harith : (ra.head + 1 + 1).toNat = (ra.head + 1).toNat + 1 := by omega
            rw [harith]
            rw [take_set_last _ _ _ (by omega)]
            rw [cyc, if_neg hflat]
            rw [List.append_assoc]

theorem ringToList_cons (ra : ringArray) (hwf : ringWF ra)
    (hne : ¬(ra.head = -1 ∨ ra.tail = -1)) :
    ringToList ra = ra.data.getD ra.tail.toNat default ::
      (if ra.tail = ra.head then [] else cyc ra.data ra.head (wrapIdx ra.data.length ra.tail)) := by
  obtain ⟨hlen, hidx⟩ := hwf
  rcases hidx with ⟨hh, ht⟩ | ⟨hh0, hhn, ht0, htn⟩
  · omega
  · rw [ringToList, if_neg hne]
    by_cases heq : ra.tail = ra.head
    · rw [if_pos heq, heq, cyc_single ra.data ra.head default hh0 hhn]
    · rw [if_neg heq]
      exact cyc_decomp ra.data ra.head ra.tail default ht0 htn hh0 hhn heq

theorem ringHasData_iff (ra : ringArray) (hwf : ringWF ra) :
    ringHasData ra = true ↔ ringToList ra ≠ [] := by
  obtain ⟨hlen, hidx⟩ := hwf
  rcases hidx with ⟨hh, ht⟩ | ⟨hh0, hhn, ht0, htn⟩
  · rw [ringToList, if_pos (Or.inl hh)]
    simp [ringHasData, hh]
  · have hne : ¬(ra.head = -1 ∨ ra.tail = -1) := by omega
    rw [ringToList_cons ra ⟨hlen, Or.inr ⟨hh0, hhn, ht0, htn⟩⟩ hne]
    simp only [ringHasData]
    constructor
    · intro _ h
      exact List.cons_ne_nil _ _ h
    · intro _
      simp only [Bool.and_eq_true, decide_eq_true_eq]
      omega

theorem ringGetTail_spec (ra : ringArray) (hwf : ringWF ra) (x : timeValue)
    (rest : List timeValue) (hl : ringToList ra = x :: rest) :
    ringGetTail ra = (x.time, x.value) := by
  obtain ⟨hlen, hidx⟩ := hwf
  rcases hidx with ⟨hh, ht⟩ | ⟨hh0, hhn, ht0, htn⟩
  · rw [ringToList, if_pos (Or.inl hh)] at hl
    exact absurd hl (by simp)
  · have hne : ¬(ra.head = -1 ∨ ra.tail = -1) := by omega
    rw [ringToList_cons ra ⟨hlen, Or.inr ⟨hh0, hhn, ht0, htn⟩⟩ hne] at hl
    rw [ringGetTail, if_pos (by omega)]
    rw [List.cons.injEq] at hl
    rw [← hl.1]

theorem ringPop_spec (ra : ringArray) (hwf : ringWF ra) (x : timeValue)
    (rest : List timeValue) (hl : ringToList ra = x :: rest) :
    (ringPop ra).1 = (x.time, x.value) ∧
    ringWF (ringPop ra).2 ∧
    ringToList (ringPop ra).2 = rest ∧
    (ringPop ra).2.data = ra.data := by
  obtain ⟨hlen, hidx⟩ := hwf
  rcases hidx with ⟨hh, ht⟩ | ⟨hh0, hhn, ht0, htn⟩
  · rw [ringToList, if_pos (Or.inl hh)] at hl
    exact absurd hl (by simp)
  · have hne : ¬(ra.head = -1 ∨ ra.tail = -1) := by omega
    have hl2 := hl
    rw [ringToList_cons ra ⟨hlen, Or.inr ⟨hh0, hhn, ht0, htn⟩⟩ hne] at hl2
    rw [List.cons.injEq] at hl2
    by_cases heq : ra.tail = ra.head
    · have hres : ringPop ra = ((x.time, x.value), ⟨ra.data, -1, -1⟩) := by
        rw [ringPop, if_neg (by omega), if_pos heq, ← hl2.1]
      rw [hres]
      refine ⟨rfl, ⟨by simpa using hlen, Or.inl ⟨rfl, rfl⟩⟩, ?_, rfl⟩
      rw [ringToList_mk, if_pos (Or.inl rfl)]
      rw [if_pos heq] at hl2
      exact hl2.2
    · have hwrapeq : (if (ra.data.length : Int) ≤ ra.tail + 1 then 0 else ra.tail + 1) =
          wrapIdx ra.data.length ra.tail := by
        simp only [wrapIdx]
        by_cases hend : ra.tail + 1 = (ra.data.length : Int)
        · rw [if_pos (by omega), if_pos hend]
        · rw [if_neg (by omega), if_neg hend]
      have hres : ringPop ra = ((x.time, x.value),
          ⟨ra.data, ra.head, wrapIdx ra.data.length ra.tail⟩) := by
        rw [ringPop, if_neg (by omega), if_neg heq]
        simp only []
        rw [hwrapeq, ← hl2.1]
      rw [hres]
      obtain ⟨hw0, hwn⟩ := wrapIdx_range ht0 htn
      refine ⟨rfl, ⟨by simpa using hlen, Or.inr ⟨hh0, hhn, hw0, hwn⟩⟩, ?_, rfl⟩
      rw [ringToList_mk, if_neg (by omega)]
      rw [if_neg heq] at hl2
      exact hl2.2

theorem ringToList_length_le (ra : ringArray) (hwf : ringWF ra) :
    (ringToList ra).length ≤ ra.data.length := by
  obtain ⟨hlen, hidx⟩ := hwf
  rcases hidx with ⟨hh, ht⟩ | ⟨hh0, hhn, ht0, htn⟩
  · rw [ringToList, if_pos (Or.inl hh)]
    simp
  · rw [ringToList, if_neg (by omega)]
    rw [cyc]
    by_cases hle : ra.tail ≤ ra.head
    · rw [if_pos hle]
      rw [List.length_take, List.length_drop]
      omega
    · rw [if_neg hle]
      rw [List.length_append, List.length_drop, List.length_take]
      omega

theorem avLoop_spec (ra : ringArray) (hlen : 1 < ra.data.length)
    (hh0 : 0 ≤ ra.head) (hhn : ra.head < ra.data.length) :
    ∀ (fuel : Nat) (i : Int) (acc num : ℚ), 0 ≤ i → i < ra.data.length → i ≠ ra.head →
    distTo ra.data.length ra.head i ≤ fuel →
    avLoop ra fuel i acc num =
      (acc + sumValues (cyc ra.data ra.head i), num + ((cyc ra.data ra.head i).length : ℚ)) := by
  intro fuel
  induction fuel with
  | zero =>
    intro i acc num hi0 hin hne hf
    have := distTo_pos hi0 hin hh0 hhn hne
    omega
  | succ f ih =>
    intro i acc num hi0 hin hne hf
    have hdec : cyc ra.data ra.head i =
        ra.data.getD i.toNat default :: cyc ra.data ra.head (wrapIdx ra.data.length i) :=
      cyc_decomp ra.data ra.head i default hi0 hin hh0 hhn hne
    have hwrapeq : (if i + 1 = (ra.data.length : Int) then 0 else i + 1) =
        wrapIdx ra.data.length i := by
      simp only [wrapIdx]
    rw [avLoop]
    rw [hwrapeq]
    obtain ⟨hw0, hwn⟩ := wrapIdx_range hi0 hin
    by_cases hend : wrapIdx ra.data.length i = ra.head
    · rw [if_pos hend]
      rw [hdec, hend, cyc_single ra.data ra.head default hh0 hhn]
      simp only [sumValues, List.map_cons, List.sum_cons, List.map_nil, List.sum_nil,
        List.length_cons, List.length_nil, Prod.mk.injEq]
      constructor
      · ring
      · push_cast
        ring
    · rw [if_neg hend]
      have hdist := distTo_wrap hi0 hin hh0 hhn hne
      rw [ih (wrapIdx ra.data.length i) _ _ hw0 hwn hend (by omega)]
      rw [hdec]
      simp only [sumValues, List.map_cons, List.sum_cons, List.length_cons, Prod.mk.injEq]
      constructor
      · ring
      · push_cast
        ring

theorem ringAverage_spec (ra : ringArray) (hwf : ringWF ra)
    (hne : ringToList ra ≠ []) :
    ringAverage ra = sumValues (ringToList ra) / ((ringToList ra).length : ℚ) := by
  obtain ⟨hlen, hidx⟩ := hwf
  rcases hidx with ⟨hh, ht⟩ | ⟨hh0, hhn, ht0, htn⟩
  · rw [ringToList, if_pos (Or.inl hh)] at hne
    exact absurd rfl hne
  · have hnodash : ¬(ra.head = -1 ∨ ra.tail = -1) := by omega
    have hlist : ringToList ra = cyc ra.data ra.head ra.tail := by
      rw [ringToList, if_neg hnodash]
    have hdata : ringHasData ra = true := by
      simp only [ringHasData, Bool.and_eq_true, decide_eq_true_eq]
      omega
    by_cases heq : ra.head = ra.tail
    · rw [ringAverage, if_neg (by simp [hdata]), if_pos heq]
      rw [hlist, ← heq, cyc_single ra.data ra.head default hh0 hhn]
      simp [sumValues]
    · rw [ringAverage, if_neg (by simp [hdata]), if_neg heq]
      have hd := distTo_lt (n := ra.data.length) ht0 htn hh0 hhn
      rw [avLoop_spec ra hlen hh0 hhn ra.data.length ra.tail 0 0 ht0 htn
        (fun h => heq h.symm) (by omega)]
      rw [hlist]
      simp only [zero_add]

theorem dropStaleLoop_spec (w now : Int) :
    ∀ (fuel : Nat) (ra : ringArray), ringWF ra → (ringToList ra).length ≤ fuel →
    ringWF (dropStaleLoop w now fuel ra) ∧
    ringToList (dropStaleLoop w now fuel ra) =
      (ringToList ra).dropWhile (fun s => decide (w ≤ now - s.time)) ∧
    (dropStaleLoop w now fuel ra).data = ra.data := by
  intro fuel
  induction fuel with
  | zero =>
    intro ra hwf hle
    have hnil : ringToList ra = [] := by
      cases h : ringToList ra with
      | nil => rfl
      | cons a l => rw [h] at hle; simp at hle
    have hz : dropStaleLoop w now 0 ra = ra := rfl
    rw [hz, hnil]
    exact ⟨hwf, rfl, rfl⟩
  | succ f ih =>
    intro ra hwf hle
    rw [dropStaleLoop]
    cases hl : ringToList ra with
    | nil =>
      have hnd : ringHasData ra = false := by
        have := (ringHasData_iff ra hwf)
        rcases h2 : ringHasData ra
        · rfl
        · exact absurd hl (this.mp h2)
      rw [hnd]
      simp only [Bool.false_eq_true, if_false]
      refine ⟨hwf, ?_, by trivial⟩
      simp [hl]
    | cons x rest =>
      have hnd : ringHasData ra = true := (ringHasData_iff ra hwf).mpr (by rw [hl]; simp)
      rw [hnd, if_pos rfl]
      rw [ringGetTail_spec ra hwf x rest hl]
      by_cases hstale : w ≤ now - x.time
      · rw [if_pos hstale]
        obtain ⟨_, hwderf, hrest, hdata⟩ := ringPop_spec ra hwf x rest hl
        have hlen2 : (ringToList (ringPop ra).2).length ≤ f := by
          rw [hrest]
          rw [hl] at hle
          simp only [List.length_cons] at hle
          omega
        obtain ⟨h1, h2, h3⟩ := ih (ringPop ra).2 hwderf hlen2
        refine ⟨h1, ?_, by rw [h3, hdata]⟩
        rw [h2, hrest]
        rw [List.dropWhile_cons]
        rw [if_pos (show decide (w ≤ now - x.time) = true from by simpa using hstale)]
      · rw [if_neg hstale]
        refine ⟨hwf, ?_, rfl⟩
        rw [hl]
        rw [List.dropWhile_cons]
        rw [if_neg (show ¬ decide (w ≤ now - x.time) = true from by simpa using hstale)]

theorem addSample_spec (ma : movingAverage) (now : Int) (val : ℚ)
    (hwf : ringWF ma.data) :
    ringWF (addSample ma now val).1.data ∧
    (addSample ma now val).1.windowSize = ma.windowSize ∧
    ringToList (addSample ma now val).1.data =
      (ringToList ma.data).dropWhile (fun s => decide (ma.windowSize ≤ now - s.time)) ++
        [⟨now, val⟩] ∧
    (addSample ma now val).2 =
      sumValues ((ringToList ma.data).dropWhile (fun s => decide (ma.windowSize ≤ now - s.time)) ++
          [⟨now, val⟩]) /
        ((((ringToList ma.data).dropWhile
            (fun s => decide (ma.windowSize ≤ now - s.time))).length + 1 : ℚ)) := by
  have hle : (ringToList ma.data).length ≤ ma.data.data.length + 1 :=
    le_trans (ringToList_length_le ma.data hwf) (by omega)
  obtain ⟨hwf1, hlist1, hdata1⟩ :=
    dropStaleLoop_spec ma.windowSize now (ma.data.data.length + 1) ma.data hwf hle
  obtain ⟨hwf2, hlist2⟩ :=
    ringPush_spec (dropStaleLoop ma.windowSize now (ma.data.data.length + 1) ma.data) now val hwf1
  have hres1 : (addSample ma now val).1.data =
      ringPush (dropStaleLoop ma.windowSize now (ma.data.data.length + 1) ma.data) now val := rfl
  have hres2 : (addSample ma now val).2 =
      ringAverage (ringPush (dropStaleLoop ma.windowSize now (ma.data.data.length + 1) ma.data)
        now val) := rfl
  have hlist3 : ringToList (ringPush (dropStaleLoop ma.windowSize now
      (ma.data.data.length + 1) ma.data) now val) =
      (ringToList ma.data).dropWhile (fun s => decide (ma.windowSize ≤ now - s.time)) ++
        [⟨now, val⟩] := by
    rw [hlist2, hlist1]
  refine ⟨by rw [hres1]; exact hwf2, rfl, by rw [hres1, hlist3], ?_⟩
  rw [hres2, ringAverage_spec _ hwf2 (by rw [hlist3]; simp), hlist3]
  rw [List.length_append]
  push_cast
  norm_num

theorem dropWhile_stale_eq_filter (w now : Int) (l : List timeValue) (hs : sortedTimes l) :
    l.dropWhile (fun s => decide (w ≤ now - s.time)) =
      l.filter (fun s => decide (now - w < s.time)) := by
  induction l with
  | nil => rfl
  | cons x xs ih =>
    obtain ⟨hhead, htail⟩ := List.pairwise_cons.mp hs
    by_cases hx : w ≤ now - x.time
    · rw [List.dropWhile_cons, if_pos (by simpa using hx), List.filter_cons,
        if_neg (by simp; omega)]
      exact ih htail
    · rw [List.dropWhile_cons, if_neg (by simpa using hx), List.filter_cons,
        if_pos (by simp; omega)]
      congr 1
      refine (List.filter_eq_self.mpr ?_).symm
      intro a ha
      have := hhead a ha
      simp only [decide_eq_true_eq]
      omega

theorem runSamples_append_single (ma : movingAverage) (l : List timeValue) (s : timeValue) :
    runSamples ma (l ++ [s]) = addSample (runSamples ma l).1 s.time s.value := by
  rw [runSamples, List.foldl_append]
  rfl

theorem timeValue_eta (s : timeValue) : (⟨s.time, s.value⟩ : timeValue) = s := rfl

theorem runSamples_spec (w : Int) (size : Nat) (hw : 0 < w) (hsize : 1 < size) :
    ∀ (l : List timeValue) (s : timeValue), sortedTimes (l ++ [s]) →
    ringWF (runSamples (newMovingAverage w size) (l ++ [s])).1.data ∧
    (runSamples (newMovingAverage w size) (l ++ [s])).1.windowSize = w ∧
    ringToList (runSamples (newMovingAverage w size) (l ++ [s])).1.data =
      (l ++ [s]).filter (fun x => decide (s.time - w < x.time)) ∧
    (runSamples (newMovingAverage w size) (l ++ [s])).2 =
      meanValues ((l ++ [s]).filter (fun x => decide (s.time - w < x.time))) := by
  intro l
  induction l using List.reverseRecOn with
  | nil =>
    intro s _
    have hwf0 : ringWF (newMovingAverage w size).data := ringWF_new size hsize
    have h0 : runSamples (newMovingAverage w size) ([] ++ [s]) =
        addSample (newMovingAverage w size) s.time s.value := by
      rw [List.nil_append, runSamples]
      rfl
    obtain ⟨ha1, ha2, ha3, ha4⟩ := addSample_spec (newMovingAverage w size) s.time s.value hwf0
    have hlist0 : ringToList (newMovingAverage w size).data = [] := ringToList_new size
    have hfilter : ([] ++ [s]).filter (fun x => decide (s.time - w < x.time)) = [s] := by
      simp only [List.nil_append, List.filter_cons, List.filter_nil]
      rw [if_pos (by simp; omega)]
    have hdw : (ringToList (newMovingAverage w size).data).dropWhile
        (fun x => decide ((newMovingAverage w size).windowSize ≤ s.time - x.time)) = [] := by
      rw [hlist0]
      rfl
    rw [h0, hfilter]
    refine ⟨ha1, ha2, ?_, ?_⟩
    · rw [ha3, hdw, List.nil_append, timeValue_eta]
    · rw [ha4, hdw, List.nil_append, timeValue_eta, meanValues, sumValues]
      norm_num
  | append_singleton l' a ih =>
    intro s hsort
    have hsort' : sortedTimes (l' ++ [a]) :=
      List.Pairwise.sublist (List.sublist_append_left _ _) hsort
    obtain ⟨hwfP, hwinP, hlistP, _⟩ := ih a hsort'
    have hstep := runSamples_append_single (newMovingAverage w size) (l' ++ [a]) s
    obtain ⟨ha1, ha2, ha3, ha4⟩ :=
      addSample_spec (runSamples (newMovingAverage w size) (l' ++ [a])).1 s.time s.value hwfP
    have hle_s : ∀ x ∈ l' ++ [a], x.time ≤ s.time := by
      intro x hx
      have h3 := (List.pairwise_append.mp hsort).2.2
      exact h3 x hx s (by simp)
    have hsorted_filtered : sortedTimes ((l' ++ [a]).filter
        (fun x => decide (a.time - w < x.time))) :=
      List.Pairwise.filter _ hsort'
    have hdw : (ringToList (runSamples (newMovingAverage w size) (l' ++ [a])).1.data).dropWhile
        (fun x => decide ((runSamples (newMovingAverage w size) (l' ++ [a])).1.windowSize ≤
          s.time - x.time)) =
        (l' ++ [a]).filter (fun x => decide (s.time - w < x.time)) := by
      rw [hlistP, hwinP]
      rw [dropWhile_stale_eq_filter w s.time _ hsorted_filtered]
      rw [List.filter_filter]
      refine List.filter_congr ?_
      intro x hx
      have hxs := hle_s x hx
      have has := hle_s a (by simp)
      by_cases h1 : s.time - w < x.time
      · have h2 : a.time - w < x.time := by omega
        simp [h1, h2]
      · simp [h1]
    have hfilter_app : ((l' ++ [a]) ++ [s]).filter (fun x => decide (s.time - w < x.time)) =
        (l' ++ [a]).filter (fun x => decide (s.time - w < x.time)) ++ [s] := by
      rw [List.filter_append]
      congr 1
      simp [List.filter_cons, show s.time - w < s.time from by omega]
    rw [hstep, hfilter_app]
    refine ⟨ha1, by rw [ha2, hwinP], ?_, ?_⟩
    · rw [ha3, hdw, timeValue_eta]
    · rw [ha4, hdw, timeValue_eta, meanValues, sumValues]
      have hlen : (((l' ++ [a]).filter (fun x => decide (s.time - w < x.time)) ++ [s]).length : ℚ) =
          (((l' ++ [a]).filter (fun x => decide (s.time - w < x.time))).length : ℚ) + 1 := by
        rw [List.length_append]
        push_cast
        norm_num
      rw [hlen]

/-- C5 (amended): for every sequence of timestamped samples pushed
through `addSample` in nondecreasing time order, the value returned after
each push equals the arithmetic mean of exactly those samples whose
timestamps lie in the half-open interval `(now - window_size, now]` — a
sample exactly `window_size` old is evicted, because the code pops while
`now.Sub(tt) >= ma.windowSize`; in particular the spec's scenario
`(t0, 1), (t0+30s, 3), (t0+90s, 5)` with a 60-second window returns 5,
the mean of the single surviving sample, not 4. -/
theorem c5_amended (w : Int) (size : Nat) (pre : List timeValue) (s : timeValue)
    (hw : 0 < w) (hsize : 1 < size) (hsort : sortedTimes (pre ++ [s])) :
    (runSamples (newMovingAverage w size) (pre ++ [s])).2 =
      meanValues (windowSamples w s.time (pre ++ [s])) := by
  obtain ⟨_, _, _, h4⟩ := runSamples_spec w size hw hsize pre s hsort
  rw [h4]
  congr 1
  have hle : ∀ x ∈ pre ++ [s], x.time ≤ s.time := by
    intro x hx
    rcases List.mem_append.mp hx with h | h
    · exact (List.pairwise_append.mp hsort).2.2 x h s (by simp)
    · simp only [List.mem_singleton] at h
      rw [h]
  rw [windowSamples]
  refine List.filter_congr ?_
  intro x hx
  simp [hle x hx]

/-- C5 (counterexample): pushing `(0, 1), (30, 3), (90, 5)` with a
60-second window returns 5, not the 4 the claim computes as the mean of
the closed interval `[now - window, now]` (which here contains the
samples 3 and 5): the sample at `t0+30s` is exactly 60 seconds old at
the third push and is evicted. -/
theorem c5_counterexample :
    (runSamples (newMovingAverage 60 128) [⟨0, 1⟩, ⟨30, 3⟩, ⟨90, 5⟩]).2 = 5 ∧
    meanValues (([⟨0, 1⟩, ⟨30, 3⟩, ⟨90, 5⟩] : List timeValue).filter
      (fun x => decide (90 - 60 ≤ x.time) && decide (x.time ≤ 90))) = 4 ∧
    (5 : ℚ) ≠ 4 := by
  refine ⟨by decide, ?_, by norm_num⟩
  rw [show (([⟨0, 1⟩, ⟨30, 3⟩, ⟨90, 5⟩] : List timeValue).filter
      (fun x => decide (90 - 60 ≤ x.time) && decide (x.time ≤ 90))) =
      [⟨30, 3⟩, ⟨90, 5⟩] from by decide]
  rw [meanValues, sumValues]
  norm_num

/-- C5 (witness): the amended claim at the spec's scenario with window
60 and the default ring size 128. -/
theorem c5_witness :
    (runSamples (newMovingAverage 60 128) ([⟨0, 1⟩, ⟨30, 3⟩] ++ [⟨90, 5⟩])).2 =
      meanValues (windowSamples 60 (90 : Int) ([⟨0, 1⟩, ⟨30, 3⟩] ++ [⟨90, 5⟩])) :=
  c5_amended 60 128 [⟨0, 1⟩, ⟨30, 3⟩] ⟨90, 5⟩ (by norm_num) (by norm_num)
    (by simp only [sortedTimes]; decide)
